import Mathlib

set_option autoImplicit false

/-!
Shallow embedding of the `MessagePassing` engine of `src/algos/message_passing.py`
(tramp repository), together with theorems settling the frozen claims about it.

Numeric scalars (numpy floats) are modelled by `FVal`: a finite rational, `inf`,
`ninf` or `nan`, with IEEE-style propagation rules for the arithmetic the engine
performs (the damping blend).  Python dictionaries (edge/node attribute stores)
are modelled by association lists with Python `dict.update` merge semantics.
Fallible code (KeyError, ValueError, assert) returns `Except`, with errors
carrying the state at the moment of the raise, matching the fact that in Python
the mutated graph survives an exception and stays inspectable.
-/

namespace Tramp

/-- IEEE-style classification of a numpy float value. -/
inductive FVal where
  | fin (q : ℚ)
  | inf
  | ninf
  | nan
deriving DecidableEq, Repr

namespace FVal

/-- `np.isnan` on a scalar. -/
def isnan : FVal → Bool
  | nan => true
  | _ => false

/-- Finiteness of a scalar. -/
def isFin : FVal → Bool
  | fin _ => true
  | _ => false

/-- The Python comparison `x < 0` on a float (False for NaN). -/
def lt0 : FVal → Bool
  | fin q => decide (q < 0)
  | ninf => true
  | _ => false

/-- IEEE negation. -/
def fneg : FVal → FVal
  | fin q => fin (-q)
  | inf => ninf
  | ninf => inf
  | nan => nan

/-- IEEE addition (NaN propagates, `inf + ninf = nan`). -/
def fadd : FVal → FVal → FVal
  | nan, _ => nan
  | _, nan => nan
  | inf, ninf => nan
  | ninf, inf => nan
  | inf, _ => inf
  | _, inf => inf
  | ninf, _ => ninf
  | _, ninf => ninf
  | fin a, fin b => fin (a + b)

/-- IEEE multiplication (NaN propagates, `0 * inf = nan`). -/
def fmul : FVal → FVal → FVal
  | nan, _ => nan
  | _, nan => nan
  | fin a, fin b => fin (a * b)
  | inf, fin q => if 0 < q then inf else if q < 0 then ninf else nan
  | fin q, inf => if 0 < q then inf else if q < 0 then ninf else nan
  | ninf, fin q => if 0 < q then ninf else if q < 0 then inf else nan
  | fin q, ninf => if 0 < q then ninf else if q < 0 then inf else nan
  | inf, inf => inf
  | inf, ninf => ninf
  | ninf, inf => ninf
  | ninf, ninf => inf

end FVal

/-- A value stored in an attribute dictionary: a numeric scalar, a numeric
array, a string tag, a Python int, or Python `None`. -/
inductive Val where
  | v (x : FVal)
  | arr (xs : List FVal)
  | s (str : String)
  | n (k : ℕ)
  | none
deriving DecidableEq, Repr

/-- Python truthiness of an attribute value, as used by `if damping:`.
(`None`, `0.0`, `0`, `""` are falsy; NaN and infinities are truthy.
A numpy array in boolean position would raise; it never occurs here.) -/
def Val.truthy : Val → Bool
  | .none => false
  | .v (.fin q) => decide (q ≠ 0)
  | .v _ => true
  | .n k => decide (k ≠ 0)
  | .s str => decide (str ≠ "")
  | .arr _ => false

/-- Numeric coercion of an attribute value, for arithmetic use
(only `Val.v` occurs on the damping coefficient in practice). -/
def Val.toF : Val → FVal
  | .v x => x
  | .n k => .fin k
  | _ => .nan

/-- A Python attribute dictionary: association list, unique keys by
construction, `dict`-style update semantics. -/
abbrev Dict := List (String × Val)

namespace Dict

/-- Python `d[k]` / `k in d`: first entry with the key. -/
def lookup : Dict → String → Option Val
  | [], _ => Option.none
  | p :: rest, k => if p.1 = k then some p.2 else lookup rest k

/-- Whether the dictionary carries the key. -/
def hasKey (d : Dict) (k : String) : Bool := d.any (fun p => decide (p.1 = k))

/-- Python `d[k] = x`: replace in place, else append. -/
def set (d : Dict) (k : String) (x : Val) : Dict :=
  if d.hasKey k then d.map (fun p => if p.1 = k then (k, x) else p)
  else d ++ [(k, x)]

/-- Python `d.update(nd)`: entries of `nd` written into `d` in order. -/
def merge (d nd : Dict) : Dict := nd.foldl (fun acc p => acc.set p.1 p.2) d

/-- Python `d.get(k)` with default `None`. -/
def get (d : Dict) (k : String) : Val := (d.lookup k).getD Val.none

end Dict

/-- Modelled from the spec: the external node types `Variable` / `Factor`
(`..base`), identities carrying an id. -/
inductive Node where
  | var (id : ℕ)
  | fac (id : ℕ)
deriving DecidableEq, Repr

/-- Python `isinstance(node, Variable)`. -/
def Node.isVariable : Node → Bool
  | var _ => true
  | fac _ => false

/-- The node's `id` attribute. -/
def Node.nid : Node → ℕ
  | var i => i
  | fac i => i

/-- One element of a message batch: `(source, target, data)`. -/
abbrev Msg := Node × Node × Dict

/-- A networkx-style directed graph: nodes and edges with attribute
dictionaries, at most one edge per ordered node pair. -/
structure Graph where
  nodes : List (Node × Dict)
  edges : List Msg
deriving DecidableEq, Repr

/-- Attribute dictionary of a node (`g.node[x]`), if the node exists. -/
def findNode : List (Node × Dict) → Node → Option Dict
  | [], _ => Option.none
  | p :: rest, x => if p.1 = x then some p.2 else findNode rest x

/-- Attribute dictionary of an edge (`g[s][t]`), if the edge exists. -/
def findEdge : List Msg → Node → Node → Option Dict
  | [], _, _ => Option.none
  | e :: rest, s, t => if e.1 = s ∧ e.2.1 = t then some e.2.2 else findEdge rest s t

/-- The ordered pair of endpoints of an edge. -/
def edgeKey (e : Msg) : Node × Node := (e.1, e.2.1)

namespace Graph

/-- `g[s][t]`. -/
def edgeData (g : Graph) (s t : Node) : Option Dict := findEdge g.edges s t

/-- `g.node[x]`. -/
def nodeData (g : Graph) (x : Node) : Option Dict := findNode g.nodes x

/-- In-place replacement of an edge's attribute dictionary. -/
def setEdge (g : Graph) (s t : Node) (d : Dict) : Graph :=
  { g with edges := g.edges.map (fun e => if e.1 = s ∧ e.2.1 = t then (s, t, d) else e) }

/-- In-place replacement of a node's attribute dictionary. -/
def setNode (g : Graph) (x : Node) (d : Dict) : Graph :=
  { g with nodes := g.nodes.map (fun p => if p.1 = x then (x, d) else p) }

/-- `g.in_edges(x, data=True)`: the edges whose target is `x`, in storage order. -/
def in_edges (g : Graph) (x : Node) : List Msg :=
  g.edges.filter (fun e => decide (e.2.1 = x))

end Graph

/-- The external initializer contract: `init(fieldName, shape, variableId, direction)`. -/
structure Initializer where
  init : String → Val → ℕ → Val → Val

/-- Modelled from the spec: the external `Model` adapter (`..models.Model`),
exposing the model DAG, a topological `forward_ordering` over all nodes, and
the variable nodes. -/
structure Model where
  dag : Graph
  forward_ordering : List Node
  vars : List Node

/-- The concrete-algorithm contract implemented by subclasses:
`forward`, `backward`, `update`, `node_objective`. -/
structure Algo where
  forward : Node → List Msg → List Msg
  backward : Node → List Msg → List Msg
  update : Node → List Msg → Dict
  node_objective : Node → List Msg → ℚ

/-- The mutable state of a `MessagePassing` instance.  `message_dag` is
`none` until `init_message_dag` has run (Python: the attribute is unset). -/
structure Engine where
  message_keys : List String
  model_dag : Graph
  forward_ordering : List Node
  backward_ordering : List Node
  vars : List Node
  n_iter : ℕ
  message_dag : Option Graph
deriving DecidableEq, Repr

/-- `MessagePassing.__init__(model, message_keys)`. -/
def MessagePassing (model : Model) (message_keys : List String) : Engine :=
  { message_keys := message_keys
    model_dag := model.dag
    forward_ordering := model.forward_ordering
    backward_ordering := model.forward_ordering.reverse
    vars := model.vars
    n_iter := 0
    message_dag := Option.none }

/-- `find_variable_in_nodes(id, nodes)`: the unique `Variable` with that id;
the `assert len(matchs) == 1` raises otherwise. -/
def find_variable_in_nodes (id : ℕ) (nodes : List Node) : Except String Node :=
  match nodes.filter (fun node => node.isVariable && decide (node.nid = id)) with
  | [m] => .ok m
  | _ => .error "AssertionError: len(matchs) == 1"

/-- The damping argument of `configure_damping`: a global float or a list of
`(variable id, direction, damping)` triples. -/
inductive DampSpec where
  | scalar (q : ℚ)
  | triples (l : List (ℕ × String × ℚ))
deriving DecidableEq, Repr

/-- The triple list `configure_damping` iterates over: a float is expanded to
one `fwd` and one `bwd` triple per variable id. -/
def damping_triples (vars : List Node) : DampSpec → List (ℕ × String × ℚ)
  | .scalar q =>
      vars.map (fun v => (v.nid, "fwd", q)) ++ vars.map (fun v => (v.nid, "bwd", q))
  | .triples l => l

/-- Effect of one damping triple: `data["damping"] = damp` on every in-edge of
the variable whose `direction` tag matches. -/
def apply_damping_triple (g : Graph) (v : Node) (direction : String) (damp : ℚ) : Graph :=
  { g with edges := g.edges.map (fun e => (e.1, e.2.1,
      if e.2.1 = v ∧ e.2.2.lookup "direction" = some (.s direction)
      then e.2.2.set "damping" (.v (.fin damp)) else e.2.2)) }

/-- The triple loop of `configure_damping` (left-to-right, in-place). -/
def config_walk (g : Graph) : List (ℕ × String × ℚ) → Except (String × Graph) Graph
  | [] => .ok g
  | tr :: rest =>
    match find_variable_in_nodes tr.1 (g.nodes.map (fun p => p.1)) with
    | .error e => .error (e, g)
    | .ok v => config_walk (apply_damping_triple g v tr.2.1 tr.2.2) rest

/-- `configure_damping(damping)` over the message graph.  Errors carry the
graph state at the moment of the raise. -/
def configure_damping (vars : List Node) (g : Graph) (damping : DampSpec) :
    Except (String × Graph) Graph :=
  config_walk g (damping_triples vars damping)

/-- The damping blend `damping * v_old + (1 - damping) * v_new` on scalars. -/
def blendF (damping old new : FVal) : FVal :=
  FVal.fadd (FVal.fmul damping old) (FVal.fmul (FVal.fadd (.fin 1) (FVal.fneg damping)) new)

/-- The damping blend on attribute values (numpy broadcasting between scalars
and arrays; non-numeric operands never occur). -/
def blendVal (damping : FVal) : Val → Val → Val
  | .v o, .v nw => .v (blendF damping o nw)
  | .arr os, .arr ns => .arr (List.zipWith (fun o nw => blendF damping o nw) os ns)
  | .v o, .arr ns => .arr (ns.map (fun nw => blendF damping o nw))
  | .arr os, .v nw => .arr (os.map (fun o => blendF damping o nw))
  | _, _ => Val.none

/-- The inner loop of `damp_message`: blend every field in `message_keys` of
one proposed data dictionary against the stored one (KeyError if absent). -/
def damp_data (damping : FVal) (stored : Dict) : List String → Dict → Except String Dict
  | [], data => .ok data
  | key :: rest, data =>
    match stored.lookup key, data.lookup key with
    | some old, some nw => damp_data damping stored rest (data.set key (blendVal damping old nw))
    | _, _ => .error "KeyError: message key"

/-- `damp_message` on a single batch element. -/
def damp_edge (keys : List String) (g : Graph) (m : Msg) : Except String Msg :=
  match g.edgeData m.1 m.2.1 with
  | Option.none => .error "KeyError: edge"
  | some stored =>
    match stored.lookup "damping" with
    | Option.none => .error "KeyError: damping"
    | some dval =>
      if dval.truthy then
        (damp_data dval.toF stored keys m.2.2).map (fun d2 => (m.1, m.2.1, d2))
      else .ok m

/-- `damp_message(message)`: damp the proposed batch in place; edges whose
configured `damping` is falsy (`None` or `0.0`) are left untouched. -/
def damp_message (keys : List String) (g : Graph) : List Msg → Except String (List Msg)
  | [] => .ok []
  | m :: rest =>
    match damp_edge keys g m with
    | .error e => .error e
    | .ok m2 =>
      match damp_message keys g rest with
      | .error e => .error e
      | .ok rest2 => .ok (m2 :: rest2)

/-- `check_message` on a single proposed edge dictionary: ValueError if the
precision-like field `a` is NaN or the location-like field `b` (when present)
has a NaN entry; returns whether the negative-`a` warning was logged. -/
def checkEdge (d : Dict) : Except String Bool :=
  match d.lookup "a" with
  | some (.v a) =>
    if a.isnan then .error "ValueError: a is nan"
    else
      match d.lookup "b" with
      | Option.none => .ok a.lt0
      | some (.v b) => if b.isnan then .error "ValueError: b is nan" else .ok a.lt0
      | some (.arr bs) =>
          if bs.any FVal.isnan then .error "ValueError: b is nan" else .ok a.lt0
      | some _ => .error "TypeError: isnan"
  | _ => .error "KeyError: a"

/-- The edge loop of `check_message`, accumulating warned edges. -/
def check_walk : List Msg → List (Node × Node) → Except String (List (Node × Node))
  | [], ws => .ok ws
  | m :: rest, ws =>
    match checkEdge m.2.2 with
    | .error e => .error e
    | .ok warned => check_walk rest (if warned then ws ++ [(m.1, m.2.1)] else ws)

/-- `check_message(new_message, old_message)`: raise on the first NaN; collect
the edges that only triggered the negative-`a` warning (the old batch is used
only for log context). -/
def check_message (new_message _old_message : List Msg) :
    Except String (List (Node × Node)) :=
  check_walk new_message []

/-- `update_message` on one batch element: read the edge's `n_iter`, overwrite
the incoming `n_iter` with its successor, and merge into the edge dictionary. -/
def update_edge (g : Graph) (m : Msg) : Except (String × Graph) Graph :=
  match g.edgeData m.1 m.2.1 with
  | Option.none => .error ("KeyError: edge", g)
  | some d =>
    match d.lookup "n_iter" with
    | some (.n k) =>
        .ok (g.setEdge m.1 m.2.1 (d.merge (m.2.2.set "n_iter" (.n (k + 1)))))
    | _ => .error ("TypeError: n_iter", g)

/-- `update_message(new_message)`. -/
def update_message (g : Graph) : List Msg → Except (String × Graph) Graph
  | [] => .ok g
  | m :: rest =>
    match update_edge g m with
    | .error e => .error e
    | .ok g2 => update_message g2 rest

/-- One node of a sweep: produce, check, damp, commit — in that order. -/
def sweep_node (keys : List String) (produce : Node → List Msg → List Msg)
    (g : Graph) (node : Node) : Except (String × Graph) Graph :=
  let message := g.in_edges node
  let new_message := produce node message
  match check_message new_message message with
  | .error e => .error (e, g)
  | .ok _ =>
    match damp_message keys g new_message with
    | .error e => .error (e, g)
    | .ok damped => update_message g damped

/-- An ordered sweep over the given node ordering. -/
def sweep (keys : List String) (produce : Node → List Msg → List Msg)
    (g : Graph) : List Node → Except (String × Graph) Graph
  | [] => .ok g
  | n :: rest =>
    match sweep_node keys produce g n with
    | .error e => .error e
    | .ok g2 => sweep keys produce g2 rest

/-- `forward_message()`. -/
def forward_message (algo : Algo) (mp : Engine) (g : Graph) : Except (String × Graph) Graph :=
  sweep mp.message_keys algo.forward g mp.forward_ordering

/-- `backward_message()`. -/
def backward_message (algo : Algo) (mp : Engine) (g : Graph) : Except (String × Graph) Graph :=
  sweep mp.message_keys algo.backward g mp.backward_ordering

/-- `update_variables()`: merge `update(variable, in_edges)` into each
variable's node dictionary. -/
def update_variables (algo : Algo) (g : Graph) : List Node → Except (String × Graph) Graph
  | [] => .ok g
  | v :: rest =>
    match g.nodeData v with
    | Option.none => .error ("KeyError: node", g)
    | some d =>
        update_variables algo (g.setNode v (d.merge (algo.update v (g.in_edges v)))) rest

/-- Default attributes of the doubled edges (`direction`, `damping`, `n_iter`);
attributes carried by the model edge take precedence (networkx ebunch rule). -/
def fwdDefaults : Dict := [("direction", Val.s "fwd"), ("damping", Val.none), ("n_iter", Val.n 0)]

/-- Default attributes of the reversed edges. -/
def bwdDefaults : Dict := [("direction", Val.s "bwd"), ("damping", Val.none), ("n_iter", Val.n 0)]

/-- The per-edge body of the `init_message_dag` loop: copy `tau` and `shape`
from the adjacent variable's model-node data, then populate every message key
via `initializer.init(key, shape, variable id, direction)`. -/
def initEdgeData (model : Graph) (keys : List String) (ini : Initializer)
    (s t : Node) (d0 : Dict) : Dict :=
  let v := if s.isVariable then s else t
  let x_data := (findNode model.nodes v).getD []
  let d1 := (d0.set "tau" (x_data.get "tau")).set "shape" (x_data.get "shape")
  keys.foldl (fun d key =>
    d.set key (ini.init key (d.get "shape") v.nid (d.get "direction"))) d1

/-- `init_message_dag(initializer)`: nodes copied from the model DAG; one
`fwd`-tagged edge per model edge plus one `bwd`-tagged reversed edge, each
initialized by the loop body.  The graph is then frozen (structural only). -/
def init_message_dag (mp : Engine) (ini : Initializer) : Graph :=
  { nodes := mp.model_dag.nodes
    edges :=
      (mp.model_dag.edges.map (fun e =>
        (e.1, e.2.1,
          initEdgeData mp.model_dag mp.message_keys ini e.1 e.2.1
            (Dict.merge fwdDefaults e.2.2)))) ++
      (mp.model_dag.edges.map (fun e =>
        (e.2.1, e.1,
          initEdgeData mp.model_dag mp.message_keys ini e.2.1 e.1
            (Dict.merge bwdDefaults e.2.2)))) }

/-- Extraction of a stored objective contribution `data["A"]`. -/
def getA (d : Dict) : Except String ℚ :=
  match d.lookup "A" with
  | some (.v (.fin q)) => .ok q
  | _ => .error "KeyError: A"

/-- The per-node loop of `update_objective`: store `A = node_objective(node,
in_edges(node))` on every node of `forward_ordering`. -/
def objective_nodes (algo : Algo) (g : Graph) : List Node → Except (String × Graph) Graph
  | [] => .ok g
  | node :: rest =>
    match Graph.nodeData g node with
    | Option.none => .error ("KeyError: node", g)
    | some d =>
      let A := algo.node_objective node (g.in_edges node)
      objective_nodes algo (g.setNode node (d.set "A" (.v (.fin A)))) rest

/-- The per-edge loop of `update_objective`: for every fwd-tagged edge, store
the pair contribution on both directed edges between its endpoints. -/
def objective_edges (algo : Algo) (g : Graph) : List (Node × Node) → Except (String × Graph) Graph
  | [] => .ok g
  | sk :: rest =>
    match Graph.edgeData g sk.1 sk.2 with
    | Option.none => .error ("KeyError: edge", g)
    | some d =>
      if d.lookup "direction" = some (.s "fwd") then
        match Graph.edgeData g sk.2 sk.1 with
        | Option.none => .error ("KeyError: reverse edge", g)
        | some rd =>
          let v := if sk.1.isVariable then sk.1 else sk.2
          let A := algo.node_objective v [(sk.1, sk.2, d), (sk.2, sk.1, rd)]
          objective_edges algo
            ((g.setEdge sk.1 sk.2 (d.set "A" (.v (.fin A)))).setEdge
              sk.2 sk.1 (rd.set "A" (.v (.fin A)))) rest
      else objective_edges algo g rest

/-- `sum(data["A"] for node, data in nodes(data=True))`. -/
def sum_nodes_A : List (Node × Dict) → ℚ → Except String ℚ
  | [], acc => .ok acc
  | p :: rest, acc =>
    match getA p.2 with
    | .ok q => sum_nodes_A rest (acc + q)
    | .error e => .error e

/-- `sum(data["A"] for fwd-tagged edges)`. -/
def sum_edges_A : List Msg → ℚ → Except String ℚ
  | [], acc => .ok acc
  | e :: rest, acc =>
    if e.2.2.lookup "direction" = some (.s "fwd") then
      match getA e.2.2 with
      | .ok q => sum_edges_A rest (acc + q)
      | .error er => .error er
    else sum_edges_A rest acc

/-- `update_objective()`: per-node contributions over `forward_ordering`,
identical per-pair contributions on both directed edges of every fwd-tagged
edge, and the total `A_model = sum(node A) - sum(fwd-edge A)`. -/
def update_objective (algo : Algo) (mp : Engine) (g : Graph) :
    Except (String × Graph) (Graph × ℚ) := do
  let g1 ← objective_nodes algo g mp.forward_ordering
  let g2 ← objective_edges algo g1 (g1.edges.map edgeKey)
  let A_nodes ←
    match sum_nodes_A g2.nodes 0 with
    | .ok q => Except.ok q
    | .error e => Except.error (e, g2)
  let A_edges ←
    match sum_edges_A g2.edges 0 with
    | .ok q => Except.ok q
    | .error e => Except.error (e, g2)
  Except.ok (g2, A_nodes - A_edges)

/-- The stopping-policy contract: `callback(engine, i, max_iter) -> bool`. -/
abbrev Callback := Engine → ℕ → ℕ → Bool

/-- Modelled from the spec: the external default initializer
`ConstantInit(a=0, b=0)` — constant zero-valued init for all fields. -/
def default_initializer : Initializer := ⟨fun _ _ _ _ => Val.v (.fin 0)⟩

/-- Python truthiness of the `damping` argument of `iterate`
(`None`, `0.0` and `[]` are falsy). -/
def dampingTruthy : Option DampSpec → Bool
  | Option.none => false
  | some (.scalar q) => decide (q ≠ 0)
  | some (.triples l) => decide (l ≠ [])

/-- One full iteration: forward sweep, backward sweep, variable update pass. -/
def one_iteration (algo : Algo) (mp : Engine) (g : Graph) : Except (String × Graph) Graph := do
  let g ← forward_message algo mp g
  let g ← backward_message algo mp g
  update_variables algo g mp.vars

/-- The `for i in range(max_iter)` loop of `iterate`: run one full iteration,
bump the global counter, consult the callback. -/
def iter_loop (algo : Algo) (callback : Callback) (max_iter : ℕ) :
    ℕ → ℕ → Engine → Except (String × Engine) Engine
  | 0, _, mp => .ok mp
  | fuel + 1, i, mp =>
    match mp.message_dag with
    | Option.none => .error ("AttributeError: message_dag", mp)
    | some g =>
      match one_iteration algo mp g with
      | .error (e, g2) => .error (e, { mp with message_dag := some g2 })
      | .ok g2 =>
        let mp2 : Engine := { mp with message_dag := some g2, n_iter := mp.n_iter + 1 }
        if callback mp2 i max_iter then .ok mp2
        else iter_loop algo callback max_iter fuel (i + 1) mp2

/-- The warm-start / initialization step of `iterate`: a warm start demands a
previously built message graph; a cold start rebuilds it and resets `n_iter`. -/
def warm_or_init (mp : Engine) (ini : Initializer) (warm_start : Bool) :
    Except (String × Engine) Engine :=
  if warm_start then
    match mp.message_dag with
    | Option.none => Except.error ("ValueError: message dag was never initialized", mp)
    | some _ => Except.ok mp
  else
    Except.ok { mp with message_dag := some (init_message_dag mp ini), n_iter := 0 }

/-- The `if damping: self.configure_damping(damping)` step of `iterate`. -/
def iterate_damping (mp : Engine) (damping : Option DampSpec) :
    Except (String × Engine) Engine :=
  if dampingTruthy damping then
    match damping with
    | some spec =>
      match mp.message_dag with
      | Option.none => Except.error ("AttributeError: message_dag", mp)
      | some g =>
        match configure_damping mp.vars g spec with
        | .error (e, g2) => Except.error (e, { mp with message_dag := some g2 })
        | .ok g2 => Except.ok { mp with message_dag := some g2 }
    | Option.none => Except.ok mp
  else Except.ok mp

/-- `iterate(max_iter, callback, initializer, damping, warm_start)`.  The
Python `callback or self.default_stopping` resolution is the caller's: the
callback is passed resolved. -/
def iterate (algo : Algo) (mp : Engine) (max_iter : ℕ) (callback : Callback)
    (initializer : Option Initializer) (damping : Option DampSpec)
    (warm_start : Bool) : Except (String × Engine) Engine :=
  match warm_or_init mp (initializer.getD default_initializer) warm_start with
  | .error e => .error e
  | .ok mp2 =>
    match iterate_damping mp2 damping with
    | .error e => .error e
    | .ok mp3 => iter_loop algo callback max_iter max_iter 0 mp3

/-! ### Concrete test fixtures (used by witnesses) -/

/-- A one-factor, one-variable model: `f0 -> x0`. -/
def wModel : Model :=
  { dag :=
      { nodes := [(Node.fac 0, []),
          (Node.var 0, [("tau", Val.v (FVal.fin 2)), ("shape", Val.n 3)])]
        edges := [(Node.fac 0, Node.var 0, [])] }
    forward_ordering := [Node.fac 0, Node.var 0]
    vars := [Node.var 0] }

/-- The engine built over `wModel` with message keys `a`, `b`. -/
def wEngine : Engine := MessagePassing wModel ["a", "b"]

/-- Identity-like concrete algorithm: each node re-emits its outgoing edges
with fixed finite values. -/
def wAlgo : Algo :=
  { forward := fun n _ => if n = Node.fac 0 then
      [(Node.fac 0, Node.var 0, [("a", Val.v (FVal.fin 1)), ("b", Val.v (FVal.fin 2))])] else []
    backward := fun n _ => if n = Node.var 0 then
      [(Node.var 0, Node.fac 0, [("a", Val.v (FVal.fin 3)), ("b", Val.v (FVal.fin 4))])] else []
    update := fun _ _ => [("r", Val.v (FVal.fin 7))]
    node_objective := fun _ _ => 1 }

/-! ### Graph-level lemmas -/

/-- The per-edge iteration count, when the edge exists and is well-typed. -/
def nIter (g : Graph) (s t : Node) : Option ℕ :=
  match g.edgeData s t with
  | some d =>
    match d.lookup "n_iter" with
    | some (.n k) => some k
    | _ => Option.none
  | _ => Option.none

/-- The stored direction tag of an edge. -/
def edgeDir (g : Graph) (s t : Node) : Option Val :=
  (g.edgeData s t).bind (fun d => d.lookup "direction")

/-- Per-edge `n_iter` counters never decrease between two graphs. -/
def MonoRel (g g2 : Graph) : Prop :=
  ∀ s t k, nIter g s t = some k → ∃ k2, k ≤ k2 ∧ nIter g2 s t = some k2

/-- What `init_message_dag` guarantees for one doubled edge `s -> t` tagged
`dir`: bookkeeping defaults, `tau`/`shape` copied from the adjacent variable's
model-node data, and every message field produced by
`initializer.init(field, shape, variable id, direction)`. -/
def EdgeInitSpec (mp : Engine) (ini : Initializer) (s t : Node) (dir : String) (d : Dict) : Prop :=
  Dict.lookup d "direction" = some (Val.s dir) ∧
  Dict.lookup d "damping" = some Val.none ∧
  Dict.lookup d "n_iter" = some (Val.n 0) ∧
  Dict.lookup d "tau"
    = some (((findNode mp.model_dag.nodes (if s.isVariable then s else t)).getD []).get "tau") ∧
  Dict.lookup d "shape"
    = some (((findNode mp.model_dag.nodes (if s.isVariable then s else t)).getD []).get "shape") ∧
  ∀ key ∈ mp.message_keys, Dict.lookup d key
    = some (ini.init key
        (((findNode mp.model_dag.nodes (if s.isVariable then s else t)).getD []).get "shape")
        (if s.isVariable then s else t).nid (Val.s dir))

/-- Boolean wellformedness of one stored edge dictionary as a sweep expects
it: a `Val.n`-typed `n_iter` counter, a `damping` entry, and every message
field present (all guaranteed by `init_message_dag`). -/
def edgeDictOK (keys : List String) (d : Dict) : Bool :=
  (match Dict.lookup d "n_iter" with
    | some (Val.n _) => true
    | _ => false) &&
  (Dict.lookup d "damping").isSome &&
  keys.all (fun key => (Dict.lookup d key).isSome)

/-- The outgoing edges of `n` whose stored `direction` tag is `dir`: what a
well-behaved `forward`/`backward` implementation re-emits for node `n`. -/
def out_dir_edges (g : Graph) (n : Node) (dir : String) : List Msg :=
  g.edges.filter (fun e =>
    decide (e.1 = n) && decide (Dict.lookup e.2.2 "direction" = some (Val.s dir)))

/-- Structural similarity of a working graph `g` to the graph `g0` an
iteration started from: same edge keys and nodes, and every stored edge
dictionary keeps its `direction` and `damping` tags and stays wellformed
(sweeps only merge message fields and bump `n_iter`). -/
def Sim (keys : List String) (g0 g : Graph) : Prop :=
  g.edges.map edgeKey = g0.edges.map edgeKey ∧
  g.nodes = g0.nodes ∧
  ∀ s t d0, g0.edgeData s t = some d0 →
    ∃ d, g.edgeData s t = some d ∧
      Dict.lookup d "direction" = Dict.lookup d0 "direction" ∧
      Dict.lookup d "damping" = Dict.lookup d0 "damping" ∧
      edgeDictOK keys d = true

/-- A proposed batch is exactly the node's outgoing `dir`-tagged edges (same
keys, in order) carrying clean data: `checkEdge` passes, no bookkeeping tags
(`direction` / `damping`) inside the payload, every message field present. -/
def batchOK (keys : List String) (g0 : Graph) (dir : String) (n : Node)
    (batch : List Msg) : Bool :=
  decide (batch.map edgeKey = (out_dir_edges g0 n dir).map edgeKey) &&
  batch.all (fun m =>
    (checkEdge m.2.2).isOk &&
    decide (Dict.lookup m.2.2 "direction" = Option.none) &&
    decide (Dict.lookup m.2.2 "damping" = Option.none) &&
    keys.all (fun key => (Dict.lookup m.2.2 key).isSome))

/-- A concrete two-node, doubled-edge message graph in mid-run state
(fixture for the iteration-counting witness). -/
def c3Graph : Graph :=
  { nodes := [(Node.fac 0, []), (Node.var 0, [])]
    edges := [(Node.fac 0, Node.var 0,
        [("direction", Val.s "fwd"), ("damping", Val.none), ("n_iter", Val.n 0),
         ("a", Val.v (FVal.fin 1)), ("b", Val.v (FVal.fin 2))]),
      (Node.var 0, Node.fac 0,
        [("direction", Val.s "bwd"), ("damping", Val.none), ("n_iter", Val.n 0),
         ("a", Val.v (FVal.fin 1)), ("b", Val.v (FVal.fin 2))])] }

/-- The engine state owning `c3Graph` (fixture for the iteration-counting
witness). -/
def c3Engine : Engine :=
  { message_keys := ["a", "b"]
    model_dag := wModel.dag
    forward_ordering := [Node.fac 0, Node.var 0]
    backward_ordering := [Node.var 0, Node.fac 0]
    vars := [Node.var 0]
    n_iter := 0
    message_dag := some c3Graph }

/-- A concrete two-node, doubled-edge message graph in mid-run state
(fixture for the check-abort witness and counterexample). -/
def c6Graph : Graph :=
  { nodes := [(Node.fac 0, []), (Node.var 0, [])]
    edges := [(Node.fac 0, Node.var 0,
        [("direction", Val.s "fwd"), ("damping", Val.none), ("n_iter", Val.n 0),
         ("a", Val.v (FVal.fin 1)), ("b", Val.v (FVal.fin 2))]),
      (Node.var 0, Node.fac 0,
        [("direction", Val.s "bwd"), ("damping", Val.none), ("n_iter", Val.n 0),
         ("a", Val.v (FVal.fin 1)), ("b", Val.v (FVal.fin 2))])] }

/-- The engine state owning `c6Graph` (fixture for the check-abort witness
and counterexample). -/
def c6Engine : Engine :=
  { message_keys := ["a", "b"]
    model_dag := { nodes := [], edges := [] }
    forward_ordering := [Node.fac 0, Node.var 0]
    backward_ordering := [Node.var 0, Node.fac 0]
    vars := [Node.var 0]
    n_iter := 0
    message_dag := some c6Graph }

/-- A concrete algorithm whose forward pass emits a NaN precision-like field
`a` (fixture for the check-abort witness). -/
def c6NanAlgo : Algo :=
  { forward := fun n _ => if n = Node.fac 0 then
      [(Node.fac 0, Node.var 0, [("a", Val.v FVal.nan), ("b", Val.v (FVal.fin 2))])] else []
    backward := fun n _ => if n = Node.var 0 then
      [(Node.var 0, Node.fac 0, [("a", Val.v (FVal.fin 3)), ("b", Val.v (FVal.fin 4))])] else []
    update := fun _ _ => []
    node_objective := fun _ _ => 0 }

/-- A concrete algorithm whose forward pass emits an infinite (non-finite but
not NaN) precision-like field `a` (fixture for the check-abort
counterexample). -/
def c6InfAlgo : Algo :=
  { forward := fun n _ => if n = Node.fac 0 then
      [(Node.fac 0, Node.var 0, [("a", Val.v FVal.inf), ("b", Val.v (FVal.fin 2))])] else []
    backward := fun n _ => if n = Node.var 0 then
      [(Node.var 0, Node.fac 0, [("a", Val.v (FVal.fin 3)), ("b", Val.v (FVal.fin 4))])] else []
    update := fun _ _ => []
    node_objective := fun _ _ => 0 }

/-- Symmetric objective storage: every `fwd`-tagged edge carries a rational
`A`, and the reversed edge stores the identical value. -/
def SymA (g : Graph) : Prop :=
  ∀ s t d, g.edgeData s t = some d →
    Dict.lookup d "direction" = some (Val.s "fwd") →
    (∃ q, Dict.lookup d "A" = some (Val.v (FVal.fin q))) ∧
    ∃ dr, g.edgeData t s = some dr ∧ Dict.lookup d "A" = Dict.lookup dr "A"

/-- Loop invariant of the per-edge objective pass: every `fwd`-tagged edge is
either still in the worklist or already carries the symmetric pair value. -/
def SymInv (ks : List (Node × Node)) (g : Graph) : Prop :=
  ∀ s t d, g.edgeData s t = some d →
    Dict.lookup d "direction" = some (Val.s "fwd") →
    (s, t) ∈ ks ∨
    ((∃ q, Dict.lookup d "A" = some (Val.v (FVal.fin q))) ∧
     ∃ dr, g.edgeData t s = some dr ∧ Dict.lookup d "A" = Dict.lookup dr "A")

/-- A concrete two-node, doubled-edge message graph in mid-run state
(fixture for the objective witness). -/
def c5Graph : Graph :=
  { nodes := [(Node.fac 0, []), (Node.var 0, [])]
    edges := [(Node.fac 0, Node.var 0,
        [("direction", Val.s "fwd"), ("damping", Val.none), ("n_iter", Val.n 0),
         ("a", Val.v (FVal.fin 1)), ("b", Val.v (FVal.fin 2))]),
      (Node.var 0, Node.fac 0,
        [("direction", Val.s "bwd"), ("damping", Val.none), ("n_iter", Val.n 0),
         ("a", Val.v (FVal.fin 1)), ("b", Val.v (FVal.fin 2))])] }

/-- The engine state owning `c5Graph` (fixture for the objective witness). -/
def c5Engine : Engine :=
  { message_keys := ["a", "b"]
    model_dag := { nodes := [], edges := [] }
    forward_ordering := [Node.fac 0, Node.var 0]
    backward_ordering := [Node.var 0, Node.fac 0]
    vars := [Node.var 0]
    n_iter := 0
    message_dag := some c5Graph }

/-- A concrete algorithm with a constant node objective (fixture for the
objective witness). -/
def c5Algo : Algo :=
  { forward := fun _ _ => []
    backward := fun _ _ => []
    update := fun _ _ => []
    node_objective := fun _ _ => 1 }

/-- A one-edge graph with damping `1.0` configured and stored `a = 2`
(fixture for the damping-`1.0` counterexample). -/
def c4InfGraph : Graph :=
  { nodes := []
    edges := [(Node.fac 0, Node.var 0,
      [("damping", Val.v (FVal.fin 1)), ("n_iter", Val.n 0),
       ("a", Val.v (FVal.fin 2))])] }

namespace Dict

theorem lookup_append (d1 d2 : Dict) (k : String) :
    lookup (d1 ++ d2) k = ((lookup d1 k).rec (lookup d2 k) (fun x => some x)) := by
  induction d1 with
  | nil => rfl
  | cons p rest ih =>
      by_cases h : p.1 = k <;> simp [lookup, h, ih]

theorem lookup_eq_none_of_not_hasKey (d : Dict) (k : String) (h : d.hasKey k = false) :
    lookup d k = Option.none := by
  induction d with
  | nil => rfl
  | cons p rest ih =>
      simp [hasKey, List.any] at h
      simp [lookup, h.1, ih (by simpa [hasKey] using h.2)]

theorem lookup_mapset_of_hasKey (d : Dict) (k : String) (x : Val)
    (h : d.hasKey k = true) :
    lookup (d.map (fun p => if p.1 = k then (k, x) else p)) k = some x := by
  induction d with
  | nil => simp [hasKey] at h
  | cons p rest ih =>
      by_cases hp : p.1 = k
      · simp [lookup, hp]
      · have hrest : hasKey rest k = true := by
          simp [hasKey] at h ⊢
          rcases h with h | h
          · exact absurd h hp
          · exact h
        simp only [List.map_cons, lookup, if_neg hp]
        exact ih hrest

theorem lookup_mapset_ne (d : Dict) (k k2 : String) (x : Val) (h : k2 ≠ k) :
    lookup (d.map (fun p => if p.1 = k then (k, x) else p)) k2 = lookup d k2 := by
  induction d with
  | nil => rfl
  | cons p rest ih =>
      by_cases hp : p.1 = k
      · have h1 : ¬ (k = k2) := fun hc => h hc.symm
        have h2 : ¬ (p.1 = k2) := by rw [hp]; exact h1
        simp only [List.map_cons, if_pos hp, lookup, if_neg h1, if_neg h2]
        exact ih
      · simp only [List.map_cons, if_neg hp, lookup]
        by_cases hq : p.1 = k2
        · rw [if_pos hq, if_pos hq]
        · rw [if_neg hq, if_neg hq]
          exact ih

theorem lookup_set_self (d : Dict) (k : String) (x : Val) :
    lookup (d.set k x) k = some x := by
  unfold set
  by_cases h : d.hasKey k = true
  · simp [h, lookup_mapset_of_hasKey d k x h]
  · simp at h
    rw [if_neg (by simp [h]), lookup_append, lookup_eq_none_of_not_hasKey d k h]
    simp [lookup]

theorem lookup_set_ne (d : Dict) (k k2 : String) (x : Val) (h : k2 ≠ k) :
    lookup (d.set k x) k2 = lookup d k2 := by
  unfold set
  by_cases hk : d.hasKey k = true
  · simp [hk, lookup_mapset_ne d k k2 x h]
  · simp at hk
    rw [if_neg (by simp [hk]), lookup_append]
    have hne : ¬ (k = k2) := fun hc => h hc.symm
    have h1 : lookup [(k, x)] k2 = Option.none := by simp [lookup, hne]
    rw [h1]
    cases lookup d k2 <;> rfl

theorem set_entries_key (d : Dict) (k : String) (x : Val) :
    ∀ p ∈ d.set k x, p.1 = k → p.2 = x := by
  intro p hp hpk
  unfold set at hp
  by_cases hk : d.hasKey k = true
  · rw [if_pos hk] at hp
    rcases List.mem_map.mp hp with ⟨q, _hq, hqe⟩
    by_cases hq1 : q.1 = k
    · rw [if_pos hq1] at hqe
      rw [← hqe]
    · rw [if_neg hq1] at hqe
      exact absurd (hqe ▸ hpk) hq1
  · rw [if_neg hk] at hp
    rcases List.mem_append.mp hp with h | h
    · exact absurd
        (show hasKey d k = true from List.any_eq_true.mpr ⟨p, h, by simp [hpk]⟩) hk
    · simp at h
      simp [h]

theorem lookup_merge_notin (d nd : Dict) (k : String) (h : lookup nd k = Option.none) :
    lookup (d.merge nd) k = lookup d k := by
  induction nd generalizing d with
  | nil => rfl
  | cons p rest ih =>
      have hp : ¬ (p.1 = k) := by
        intro hc
        simp [lookup, hc] at h
      simp only [lookup, if_neg hp] at h
      show lookup (merge (d.set p.1 p.2) rest) k = lookup d k
      rw [ih (d.set p.1 p.2) h, lookup_set_ne d p.1 k p.2 (fun hc => hp hc.symm)]

theorem lookup_val_of_all (nd : Dict) (k : String) (x y : Val)
    (hall : ∀ p ∈ nd, p.1 = k → p.2 = x) (h : lookup nd k = some y) : y = x := by
  induction nd with
  | nil => simp [lookup] at h
  | cons q rr ihr =>
      by_cases hq : q.1 = k
      · simp only [lookup, if_pos hq, Option.some.injEq] at h
        rw [← h]
        exact hall q (by simp) hq
      · simp only [lookup, if_neg hq] at h
        exact ihr (fun r hr hrk => hall r (by simp [hr]) hrk) h

theorem lookup_merge_all (d nd : Dict) (k : String) (x : Val)
    (hmem : lookup nd k = some x) (hall : ∀ p ∈ nd, p.1 = k → p.2 = x) :
    lookup (d.merge nd) k = some x := by
  induction nd generalizing d with
  | nil => simp [lookup] at hmem
  | cons p rest ih =>
      show lookup (merge (d.set p.1 p.2) rest) k = some x
      have hall2 : ∀ r ∈ rest, r.1 = k → r.2 = x :=
        fun r hr hrk => hall r (by simp [hr]) hrk
      rcases hrest : lookup rest k with _ | y
      · rw [lookup_merge_notin _ rest k hrest]
        have hp : p.1 = k := by
          by_contra hp
          simp only [lookup, if_neg hp, hrest] at hmem
          exact Option.noConfusion hmem
        have hv : p.2 = x := hall p (by simp) hp
        rw [hp, hv, lookup_set_self]
      · have hy : y = x := lookup_val_of_all rest k x y hall2 hrest
        apply ih
        · rw [hrest, hy]
        · exact hall2

theorem lookup_merge_set_self (d nd : Dict) (k : String) (x : Val) :
    lookup (d.merge (nd.set k x)) k = some x :=
  lookup_merge_all d (nd.set k x) k x (lookup_set_self nd k x) (set_entries_key nd k x)

theorem lookup_set_isSome (d : Dict) (k k2 : String) (x : Val)
    (h : (lookup d k2).isSome) : (lookup (d.set k x) k2).isSome := by
  by_cases hk : k2 = k
  · subst hk
    simp [lookup_set_self]
  · rw [lookup_set_ne d k k2 x hk]
    exact h

theorem lookup_merge_isSome (d nd : Dict) (k : String)
    (h : (lookup d k).isSome) : (lookup (d.merge nd) k).isSome := by
  induction nd generalizing d with
  | nil => exact h
  | cons p rest ih =>
      exact ih (d.set p.1 p.2) (lookup_set_isSome d p.1 k p.2 h)

end Dict

theorem findEdge_setEdge_self (es : List Msg) (s t : Node) (d : Dict)
    (h : (findEdge es s t).isSome) :
    findEdge (es.map (fun e => if e.1 = s ∧ e.2.1 = t then (s, t, d) else e)) s t = some d := by
  induction es with
  | nil => simp [findEdge] at h
  | cons e rest ih =>
      by_cases hc : e.1 = s ∧ e.2.1 = t
      · simp only [List.map_cons, if_pos hc, findEdge]
        simp
      · simp only [List.map_cons, if_neg hc, findEdge, if_neg hc]
        simp only [findEdge, if_neg hc] at h
        exact ih h

theorem findEdge_setEdge_ne (es : List Msg) (s t : Node) (d : Dict) (s2 t2 : Node)
    (h : ¬ (s2 = s ∧ t2 = t)) :
    findEdge (es.map (fun e => if e.1 = s ∧ e.2.1 = t then (s, t, d) else e)) s2 t2
      = findEdge es s2 t2 := by
  induction es with
  | nil => rfl
  | cons e rest ih =>
      by_cases hc : e.1 = s ∧ e.2.1 = t
      · have h1 : ¬ (s = s2 ∧ t = t2) := fun hc2 => h ⟨hc2.1.symm, hc2.2.symm⟩
        have h2 : ¬ (e.1 = s2 ∧ e.2.1 = t2) := fun hc2 =>
          h ⟨by rw [← hc2.1, hc.1], by rw [← hc2.2, hc.2]⟩
        simp only [List.map_cons, if_pos hc, findEdge, if_neg h1, if_neg h2]
        exact ih
      · simp only [List.map_cons, if_neg hc, findEdge]
        by_cases hq : e.1 = s2 ∧ e.2.1 = t2
        · rw [if_pos hq, if_pos hq]
        · rw [if_neg hq, if_neg hq]
          exact ih

theorem findEdge_mem (es : List Msg) (s t : Node) (d : Dict)
    (h : findEdge es s t = some d) : (s, t, d) ∈ es := by
  induction es with
  | nil => exact absurd h (by simp [findEdge])
  | cons e rest ih =>
      by_cases hc : e.1 = s ∧ e.2.1 = t
      · simp only [findEdge, if_pos hc, Option.some.injEq] at h
        have : e = (s, t, d) := by
          rcases e with ⟨e1, e2, e3⟩
          simp at hc h ⊢
          exact ⟨hc.1, hc.2, h⟩
        simp [this]
      · simp only [findEdge, if_neg hc] at h
        exact List.mem_cons_of_mem e (ih h)

theorem findEdge_isSome_iff (es : List Msg) (s t : Node) :
    (findEdge es s t).isSome ↔ (s, t) ∈ es.map edgeKey := by
  induction es with
  | nil => simp [findEdge]
  | cons e rest ih =>
      by_cases hc : e.1 = s ∧ e.2.1 = t
      · have hke : edgeKey e = (s, t) := by simp [edgeKey, hc.1, hc.2]
        simp [findEdge, hc, hke]
      · have hkey : edgeKey e ≠ (s, t) := by
          intro hk
          exact hc ⟨congrArg Prod.fst hk, congrArg Prod.snd hk⟩
        simp only [findEdge, if_neg hc, List.map_cons, List.mem_cons]
        rw [ih]
        constructor
        · intro h
          exact Or.inr h
        · intro h
          rcases h with h | h
          · exact absurd h.symm hkey
          · exact h

theorem findEdge_of_mem_nodup (es : List Msg) (e : Msg)
    (hnd : (es.map edgeKey).Nodup) (he : e ∈ es) :
    findEdge es e.1 e.2.1 = some e.2.2 := by
  induction es with
  | nil => simp at he
  | cons e0 rest ih =>
      rcases List.mem_cons.mp he with h | h
      · subst h
        simp [findEdge]
      · rw [List.map_cons] at hnd
        have hnd2 := List.nodup_cons.mp hnd
        have hkey : ¬ (e0.1 = e.1 ∧ e0.2.1 = e.2.1) := by
          intro hc
          apply hnd2.1
          have hk : edgeKey e0 = edgeKey e := by simp [edgeKey, hc.1, hc.2]
          rw [hk]
          exact List.mem_map.mpr ⟨e, h, rfl⟩
        simp only [findEdge, if_neg hkey]
        exact ih hnd2.2 h

theorem setEdge_edgeKeys (es : List Msg) (s t : Node) (d : Dict) :
    (es.map (fun e => if e.1 = s ∧ e.2.1 = t then (s, t, d) else e)).map edgeKey
      = es.map edgeKey := by
  rw [List.map_map]
  apply List.map_congr_left
  intro e _
  by_cases hc : e.1 = s ∧ e.2.1 = t
  · simp [hc, edgeKey, hc.1, hc.2]
  · simp [hc]

theorem Graph.edgeData_setEdge_self (g : Graph) (s t : Node) (d : Dict)
    (h : (g.edgeData s t).isSome) : (g.setEdge s t d).edgeData s t = some d :=
  findEdge_setEdge_self g.edges s t d h

theorem Graph.edgeData_setEdge_ne (g : Graph) (s t : Node) (d : Dict) (s2 t2 : Node)
    (h : ¬ (s2 = s ∧ t2 = t)) :
    (g.setEdge s t d).edgeData s2 t2 = g.edgeData s2 t2 :=
  findEdge_setEdge_ne g.edges s t d s2 t2 h

theorem Graph.setEdge_nodes (g : Graph) (s t : Node) (d : Dict) :
    (g.setEdge s t d).nodes = g.nodes := rfl

theorem Graph.setNode_edges (g : Graph) (x : Node) (d : Dict) :
    (g.setNode x d).edges = g.edges := rfl

theorem Graph.setEdge_keys (g : Graph) (s t : Node) (d : Dict) :
    (g.setEdge s t d).edges.map edgeKey = g.edges.map edgeKey :=
  setEdge_edgeKeys g.edges s t d

/-! ### Dictionary key-uniqueness lemmas (Python dictionaries cannot carry
duplicate keys; batches built by Python code always satisfy these). -/

theorem Dict.nodup_keys_entries (nd : Dict) (k : String) (v : Val)
    (hnd : (nd.map Prod.fst).Nodup) (h : Dict.lookup nd k = some v) :
    ∀ p ∈ nd, p.1 = k → p.2 = v := by
  induction nd with
  | nil => simp
  | cons p rest ih =>
      rw [List.map_cons] at hnd
      have hnd2 := List.nodup_cons.mp hnd
      intro p2 hp2 hpk
      rcases List.mem_cons.mp hp2 with h2 | h2
      · subst h2
        simp only [Dict.lookup, if_pos hpk, Option.some.injEq] at h
        exact h
      · by_cases hp : p.1 = k
        · exfalso
          apply hnd2.1
          rw [hp, ← hpk]
          exact List.mem_map.mpr ⟨p2, h2, rfl⟩
        · simp only [Dict.lookup, if_neg hp] at h
          exact ih hnd2.2 h p2 h2 hpk

theorem Dict.lookup_merge_nodup (d nd : Dict) (k : String) (v : Val)
    (hnd : (nd.map Prod.fst).Nodup) (h : Dict.lookup nd k = some v) :
    Dict.lookup (d.merge nd) k = some v :=
  Dict.lookup_merge_all d nd k v h (Dict.nodup_keys_entries nd k v hnd h)

theorem Dict.keys_set_nodup (d : Dict) (k : String) (x : Val)
    (hnd : (d.map Prod.fst).Nodup) : ((d.set k x).map Prod.fst).Nodup := by
  unfold Dict.set
  by_cases hk : Dict.hasKey d k = true
  · rw [if_pos hk, List.map_map]
    have : (d.map (Prod.fst ∘ fun p => if p.1 = k then (k, x) else p)) = d.map Prod.fst := by
      apply List.map_congr_left
      intro p _
      by_cases hp : p.1 = k
      · simp [hp]
      · simp [hp]
    rw [this]
    exact hnd
  · rw [if_neg hk, List.map_append]
    simp only [List.map_cons, List.map_nil]
    rw [List.nodup_append]
    refine ⟨hnd, List.nodup_singleton k, ?_⟩
    intro a ha hb
    simp at hb
    rw [hb] at ha
    rcases List.mem_map.mp ha with ⟨p, hp, hpk⟩
    exact absurd (show Dict.hasKey d k = true from
      List.any_eq_true.mpr ⟨p, hp, by simp [hpk]⟩) hk

/-! ### check_message lemmas -/

theorem check_walk_error (msg : List Msg) (ws : List (Node × Node)) (m : Msg) (er : String)
    (hm : m ∈ msg) (he : checkEdge m.2.2 = .error er) :
    ∃ e2, check_walk msg ws = .error e2 := by
  induction msg generalizing ws with
  | nil => simp at hm
  | cons m0 rest ih =>
      rcases hck : checkEdge m0.2.2 with e0 | w0
      · exact ⟨e0, by simp [check_walk, hck]⟩
      · rcases List.mem_cons.mp hm with h | h
        · subst h
          rw [hck] at he
          exact absurd he (by simp)
        · simp only [check_walk, hck]
          exact ih _ h

theorem check_walk_ok (msg : List Msg) (ws : List (Node × Node))
    (h : ∀ m ∈ msg, ∃ w, checkEdge m.2.2 = .ok w) :
    ∃ ws2, check_walk msg ws = .ok ws2 ∧ (∀ p ∈ ws, p ∈ ws2) ∧
      (∀ m ∈ msg, checkEdge m.2.2 = .ok true → (m.1, m.2.1) ∈ ws2) := by
  induction msg generalizing ws with
  | nil => exact ⟨ws, rfl, fun p hp => hp, by simp⟩
  | cons m0 rest ih =>
      rcases h m0 (by simp) with ⟨w0, hw0⟩
      rcases ih (if w0 then ws ++ [(m0.1, m0.2.1)] else ws)
          (fun m hm => h m (by simp [hm])) with ⟨ws2, hws2, hsub, hwarn⟩
      refine ⟨ws2, by simp [check_walk, hw0, hws2], ?_, ?_⟩
      · intro p hp
        apply hsub
        by_cases hb : w0 = true <;> simp [hb, hp]
      · intro m hm hmt
        rcases List.mem_cons.mp hm with h2 | h2
        · subst h2
          rw [hw0] at hmt
          have : w0 = true := by simpa using hmt
          subst this
          apply hsub
          simp
        · exact hwarn m h2 hmt

/-! ### damp_message lemmas -/

theorem damp_message_skip (keys : List String) (g : Graph) (msg : List Msg)
    (h : ∀ m ∈ msg, ∃ dm dv, g.edgeData m.1 m.2.1 = some dm ∧
      Dict.lookup dm "damping" = some dv ∧ dv.truthy = false) :
    damp_message keys g msg = .ok msg := by
  induction msg with
  | nil => rfl
  | cons m rest ih =>
      rcases h m (by simp) with ⟨dm, dv, hdm, hdv, htr⟩
      have h1 : damp_edge keys g m = .ok m := by
        simp [damp_edge, hdm, hdv, htr]
      simp [damp_message, h1, ih (fun m2 hm2 => h m2 (by simp [hm2]))]

/-! ### update_message lemmas -/

theorem update_edge_ok (g : Graph) (m : Msg) (d : Dict) (k : ℕ)
    (hd : g.edgeData m.1 m.2.1 = some d) (hk : Dict.lookup d "n_iter" = some (Val.n k)) :
    update_edge g m = .ok (g.setEdge m.1 m.2.1 (d.merge (m.2.2.set "n_iter" (Val.n (k + 1))))) := by
  simp [update_edge, hd, hk]

theorem update_message_effect (g : Graph) (msg : List Msg)
    (hnodup : (msg.map edgeKey).Nodup)
    (hpres : ∀ m ∈ msg, ∃ d k, g.edgeData m.1 m.2.1 = some d ∧
      Dict.lookup d "n_iter" = some (Val.n k)) :
    ∃ g2, update_message g msg = .ok g2 ∧
      g2.edges.map edgeKey = g.edges.map edgeKey ∧
      g2.nodes = g.nodes ∧
      (∀ s t, (s, t) ∉ msg.map edgeKey → g2.edgeData s t = g.edgeData s t) ∧
      (∀ m ∈ msg, ∀ d k, g.edgeData m.1 m.2.1 = some d →
        Dict.lookup d "n_iter" = some (Val.n k) →
        g2.edgeData m.1 m.2.1 = some (d.merge (m.2.2.set "n_iter" (Val.n (k + 1))))) := by
  induction msg generalizing g with
  | nil => exact ⟨g, rfl, rfl, rfl, fun s t _ => rfl, by simp⟩
  | cons m rest ih =>
      rcases hpres m (by simp) with ⟨d, k, hd, hk⟩
      rw [List.map_cons] at hnodup
      have hnd2 := List.nodup_cons.mp hnodup
      set d2 : Dict := d.merge (m.2.2.set "n_iter" (Val.n (k + 1))) with hd2def
      have hg1 : update_edge g m = .ok (g.setEdge m.1 m.2.1 d2) := update_edge_ok g m d k hd hk
      set g1 : Graph := g.setEdge m.1 m.2.1 d2 with hg1def
      have hne : ∀ m2 : Msg, edgeKey m2 ≠ edgeKey m → ¬ (m2.1 = m.1 ∧ m2.2.1 = m.2.1) := by
        intro m2 hkey hc
        exact hkey (by simp [edgeKey, hc.1, hc.2])
      have hrestpres : ∀ m2 ∈ rest, ∃ d3 k3, g1.edgeData m2.1 m2.2.1 = some d3 ∧
          Dict.lookup d3 "n_iter" = some (Val.n k3) := by
        intro m2 hm2
        rcases hpres m2 (by simp [hm2]) with ⟨d3, k3, hd3, hk3⟩
        have hkey : edgeKey m2 ≠ edgeKey m := by
          intro hc
          exact hnd2.1 (hc ▸ List.mem_map.mpr ⟨m2, hm2, rfl⟩)
        exact ⟨d3, k3, by
          rw [hg1def, Graph.edgeData_setEdge_ne g m.1 m.2.1 d2 m2.1 m2.2.1 (hne m2 hkey)]
          exact hd3, hk3⟩
      rcases ih g1 hnd2.2 hrestpres with ⟨g2, hup, hkeys, hnodes, hframe, htarget⟩
      refine ⟨g2, ?_, ?_, ?_, ?_, ?_⟩
      · simp only [update_message, hg1, hup]
      · rw [hkeys, hg1def, Graph.setEdge_keys]
      · rw [hnodes, hg1def, Graph.setEdge_nodes]
      · intro s t hst
        have hst1 : (s, t) ∉ rest.map edgeKey := fun hc => hst (by simp [hc])
        have hst2 : (s, t) ≠ edgeKey m := fun hc => hst (by simp [hc])
        rw [hframe s t hst1, hg1def,
          Graph.edgeData_setEdge_ne g m.1 m.2.1 d2 s t (hne (s, t, []) hst2)]
      · intro m2 hm2 d3 k3 hd3 hk3
        rcases List.mem_cons.mp hm2 with h2 | h2
        · subst h2
          rw [hd] at hd3
          have hdd : d3 = d := by injection hd3 with h3; exact h3.symm
          subst hdd
          rw [hk] at hk3
          have hkk : k3 = k := by
            simp only [Option.some.injEq, Val.n.injEq] at hk3
            omega
          subst hkk
          have hmem : (g2.edgeData m2.1 m2.2.1) = g1.edgeData m2.1 m2.2.1 := by
            apply hframe
            intro hc
            exact hnd2.1 hc
          rw [hmem, hg1def]
          exact Graph.edgeData_setEdge_self g m2.1 m2.2.1 d2 (by rw [hd]; rfl)
        · have hkey : edgeKey m2 ≠ edgeKey m := by
            intro hc
            exact hnd2.1 (hc ▸ List.mem_map.mpr ⟨m2, h2, rfl⟩)
          have hd3g1 : g1.edgeData m2.1 m2.2.1 = some d3 := by
            rw [hg1def, Graph.edgeData_setEdge_ne g m.1 m.2.1 d2 m2.1 m2.2.1 (hne m2 hkey)]
            exact hd3
          exact htarget m2 h2 d3 k3 hd3g1 hk3

theorem checkEdge_ok_lt0 (d : Dict) (w : Bool) (a : FVal)
    (hw : checkEdge d = .ok w) (ha : Dict.lookup d "a" = some (Val.v a)) : w = a.lt0 := by
  by_cases hn : a.isnan = true
  · simp [checkEdge, ha, hn] at hw
  · rcases hb : Dict.lookup d "b" with _ | bv
    · simp [checkEdge, ha, hb, hn] at hw
      exact hw.symm
    · cases bv with
      | v b =>
          by_cases hbn : b.isnan = true
          · simp [checkEdge, ha, hb, hn, hbn] at hw
          · simp [checkEdge, ha, hb, hn, hbn] at hw
            exact hw.symm
      | arr bs =>
          by_cases hbn : bs.any FVal.isnan = true
          · simp [checkEdge, ha, hb, hn, hbn] at hw
          · simp [checkEdge, ha, hb, hn, hbn] at hw
            exact hw.symm
      | s str => simp [checkEdge, ha, hb, hn] at hw
      | n k => simp [checkEdge, ha, hb, hn] at hw
      | none => simp [checkEdge, ha, hb, hn] at hw

/-- C1 (amended: the fatal condition is a NaN field, not any non-finite one —
see `C1_counterexample`): a NaN precision-like field `a`, or a NaN entry in a
location-like field `b`, makes `check_message` raise, aborting the sweep; a
negative non-NaN `a` only logs a warning and the sweep goes on to commit that
value on the edge. -/
theorem C1_nan_fatal_negative_warns
    (msg old : List Msg) (s t : Node) (d : Dict) (hm : (s, t, d) ∈ msg) :
    ((Dict.lookup d "a" = some (Val.v FVal.nan)
        ∨ (∃ bs, Dict.lookup d "b" = some (Val.arr bs) ∧ FVal.nan ∈ bs)
        ∨ Dict.lookup d "b" = some (Val.v FVal.nan))
      → ∃ e, check_message msg old = Except.error e)
    ∧
    (∀ q : ℚ, q < 0 → Dict.lookup d "a" = some (Val.v (FVal.fin q)) →
      (∀ m2 ∈ msg, ∃ w, checkEdge m2.2.2 = Except.ok w) →
      ∃ ws, check_message msg old = Except.ok ws ∧ (s, t) ∈ ws)
    ∧
    (∀ (keys : List String) (g : Graph) (produce : Node → List Msg → List Msg) (n : Node),
      produce n (g.in_edges n) = msg →
      (msg.map edgeKey).Nodup →
      (d.map Prod.fst).Nodup →
      (∀ m2 ∈ msg, ∃ w, checkEdge m2.2.2 = Except.ok w) →
      (∀ m2 ∈ msg, ∃ dm km, g.edgeData m2.1 m2.2.1 = some dm ∧
        Dict.lookup dm "damping" = some Val.none ∧
        Dict.lookup dm "n_iter" = some (Val.n km)) →
      ∀ q : ℚ, Dict.lookup d "a" = some (Val.v (FVal.fin q)) →
      ∃ g2 d2, sweep_node keys produce g n = Except.ok g2 ∧
        g2.edgeData s t = some d2 ∧ Dict.lookup d2 "a" = some (Val.v (FVal.fin q))) := by
  refine ⟨?_, ?_, ?_⟩
  · intro hcase
    have herr : ∃ er, checkEdge d = .error er := by
      rcases hav : Dict.lookup d "a" with _ | av
      · exact ⟨"KeyError: a", by simp [checkEdge, hav]⟩
      · cases av with
        | v a =>
            by_cases hn : a.isnan = true
            · exact ⟨"ValueError: a is nan", by simp [checkEdge, hav, hn]⟩
            · rcases hcase with h | h | h
              · rw [hav] at h
                have : a = FVal.nan := by simpa using h
                rw [this] at hn
                exact absurd rfl hn
              · rcases h with ⟨bs, hb, hnan⟩
                have hany : bs.any FVal.isnan = true :=
                  List.any_eq_true.mpr ⟨FVal.nan, hnan, rfl⟩
                exact ⟨"ValueError: b is nan", by simp [checkEdge, hav, hn, hb, hany]⟩
              · exact ⟨"ValueError: b is nan",
                  by simp [checkEdge, hav, hn, h, show FVal.nan.isnan = true from rfl]⟩
        | arr xs => exact ⟨"KeyError: a", by simp [checkEdge, hav]⟩
        | s str => exact ⟨"KeyError: a", by simp [checkEdge, hav]⟩
        | n k => exact ⟨"KeyError: a", by simp [checkEdge, hav]⟩
        | none => exact ⟨"KeyError: a", by simp [checkEdge, hav]⟩
    rcases herr with ⟨er, herr⟩
    rcases check_walk_error msg [] (s, t, d) er hm herr with ⟨e2, he2⟩
    exact ⟨e2, he2⟩
  · intro q hq ha hall
    rcases check_walk_ok msg [] hall with ⟨ws, hws, _, hwarn⟩
    rcases hall (s, t, d) hm with ⟨w, hw⟩
    have hwt : w = true := by
      rw [checkEdge_ok_lt0 d w (FVal.fin q) hw ha]
      simp [FVal.lt0, hq]
    refine ⟨ws, hws, ?_⟩
    exact hwarn (s, t, d) hm (by rw [← hwt]; exact hw)
  · intro keys g produce n hprod hnodup hdnodup hall hdm q ha
    rcases check_walk_ok msg [] hall with ⟨ws, hws, _, _⟩
    have hdampskip : damp_message keys g msg = .ok msg := by
      apply damp_message_skip
      intro m2 hm2
      rcases hdm m2 hm2 with ⟨dm, km, h1, h2, h3⟩
      exact ⟨dm, Val.none, h1, h2, rfl⟩
    obtain ⟨g2, hupd, _, _, _, htgt⟩ := update_message_effect g msg hnodup (by
      intro m2 hm2
      rcases hdm m2 hm2 with ⟨dm, km, h1, h2, h3⟩
      exact ⟨dm, km, h1, h3⟩)
    rcases hdm (s, t, d) hm with ⟨dm, km, h1, h2, h3⟩
    have hcommit := htgt (s, t, d) hm dm km h1 h3
    refine ⟨g2, dm.merge (Dict.set d "n_iter" (Val.n (km + 1))), ?_, hcommit, ?_⟩
    · simp only [sweep_node, hprod, check_message, hws, hdampskip]
      exact hupd
    · have hsetne : Dict.lookup (Dict.set d "n_iter" (Val.n (km + 1))) "a"
          = some (Val.v (FVal.fin q)) := by
        rw [Dict.lookup_set_ne d "n_iter" "a" _ (by decide)]
        exact ha
      exact Dict.lookup_merge_nodup dm _ "a" _
        (Dict.keys_set_nodup d "n_iter" (Val.n (km + 1)) hdnodup) hsetne

/-- C1 counterexample: a batch whose `a` is infinite and whose `b` holds an
infinite entry — both non-finite — passes `check_message` without error, so a
non-finite (as opposed to NaN) field is not fatal. -/
theorem C1_counterexample :
    check_message
      [(Node.fac 0, Node.var 0, [("a", Val.v FVal.inf), ("b", Val.arr [FVal.inf])])] []
      = Except.ok [] := by rfl

/-- C1 witness: concrete NaN batch rejected; concrete negative batch warned
about and committed by a sweep step. -/
theorem C1_witness :
    (∃ e, check_message [(Node.fac 0, Node.var 0, [("a", Val.v FVal.nan)])] []
        = Except.error e)
    ∧ (∃ ws, check_message [(Node.fac 0, Node.var 0, [("a", Val.v (FVal.fin (-1)))])] []
        = Except.ok ws ∧ (Node.fac 0, Node.var 0) ∈ ws)
    ∧ (∃ g2 d2,
        sweep_node [] (fun _ _ => [(Node.fac 0, Node.var 0, [("a", Val.v (FVal.fin (-1)))])])
          ({ nodes := [],
             edges := [(Node.fac 0, Node.var 0, [("damping", Val.none), ("n_iter", Val.n 0)])] } :
            Graph)
          (Node.fac 0) = Except.ok g2
        ∧ g2.edgeData (Node.fac 0) (Node.var 0) = some d2
        ∧ Dict.lookup d2 "a" = some (Val.v (FVal.fin (-1)))) := by
  have T1 := C1_nan_fatal_negative_warns
    [(Node.fac 0, Node.var 0, [("a", Val.v FVal.nan)])] []
    (Node.fac 0) (Node.var 0) [("a", Val.v FVal.nan)] (by simp)
  have T2 := C1_nan_fatal_negative_warns
    [(Node.fac 0, Node.var 0, [("a", Val.v (FVal.fin (-1)))])] []
    (Node.fac 0) (Node.var 0) [("a", Val.v (FVal.fin (-1)))] (by simp)
  have hall : ∀ m2 ∈ [((Node.fac 0 : Node), (Node.var 0 : Node),
      ([("a", Val.v (FVal.fin (-1)))] : Dict))], ∃ w, checkEdge m2.2.2 = Except.ok w := by
    intro m2 hm2
    simp at hm2
    rw [hm2]
    exact ⟨true, rfl⟩
  refine ⟨T1.1 (Or.inl rfl), T2.2.1 (-1) (by norm_num) rfl hall, ?_⟩
  apply T2.2.2 []
    ({ nodes := [],
       edges := [(Node.fac 0, Node.var 0, [("damping", Val.none), ("n_iter", Val.n 0)])] } :
      Graph)
    (fun _ _ => [(Node.fac 0, Node.var 0, [("a", Val.v (FVal.fin (-1)))])])
    (Node.fac 0) rfl (by simp) (by simp) hall
  · intro m2 hm2
    simp at hm2
    rw [hm2]
    exact ⟨[("damping", Val.none), ("n_iter", Val.n 0)], 0, rfl, rfl, rfl⟩
  · rfl

/-! ### Damping blend lemmas (claim C4) -/

theorem blendF_one (o : FVal) (q : ℚ) : blendF (FVal.fin 1) o (FVal.fin q) = o := by
  have h0 : FVal.fadd (FVal.fin 1) (FVal.fneg (FVal.fin 1)) = FVal.fin 0 := by
    simp [FVal.fadd, FVal.fneg]
  have h1 : FVal.fmul (FVal.fin 0) (FVal.fin q) = FVal.fin 0 := by
    simp [FVal.fmul]
  unfold blendF
  rw [h0, h1]
  cases o with
  | fin a => simp [FVal.fmul, FVal.fadd]
  | inf => norm_num [FVal.fmul, FVal.fadd]
  | ninf => norm_num [FVal.fmul, FVal.fadd]
  | nan => simp [FVal.fmul, FVal.fadd]

theorem blendVal_one (old nw : Val)
    (h : (∃ o q2, old = Val.v o ∧ nw = Val.v (FVal.fin q2)) ∨
      (∃ os ns, old = Val.arr os ∧ nw = Val.arr ns ∧ os.length = ns.length ∧
        ∀ x ∈ ns, x.isFin = true)) :
    blendVal (FVal.fin 1) old nw = old := by
  rcases h with ⟨o, q2, ho, hn⟩ | ⟨os, ns, ho, hn, hlen, hfin⟩
  · subst ho
    subst hn
    simp [blendVal, blendF_one]
  · subst ho
    subst hn
    simp only [blendVal, Val.arr.injEq]
    induction os generalizing ns with
    | nil => simp
    | cons o orest ih =>
        cases ns with
        | nil => simp at hlen
        | cons x nrest =>
            have hx : x.isFin = true := hfin x (by simp)
            cases x with
            | fin q3 =>
                simp only [List.zipWith_cons_cons, List.cons.injEq]
                refine ⟨blendF_one o q3, ?_⟩
                exact ih nrest (by simpa using hlen)
                  (fun y hy => hfin y (by simp [hy]))
            | inf => simp [FVal.isFin] at hx
            | ninf => simp [FVal.isFin] at hx
            | nan => simp [FVal.isFin] at hx

/-- The inner damping loop: success, per-key blend values, frame on other
keys, and preservation of key uniqueness. -/
theorem damp_data_spec (dv : FVal) (stored : Dict) (keys : List String) (data : Dict)
    (hnodup : keys.Nodup)
    (hst : ∀ key ∈ keys, (Dict.lookup stored key).isSome)
    (hdt : ∀ key ∈ keys, (Dict.lookup data key).isSome) :
    ∃ data2, damp_data dv stored keys data = .ok data2 ∧
      (∀ k, k ∉ keys → Dict.lookup data2 k = Dict.lookup data k) ∧
      (∀ key ∈ keys, ∀ old nw, Dict.lookup stored key = some old →
        Dict.lookup data key = some nw →
        Dict.lookup data2 key = some (blendVal dv old nw)) ∧
      ((data.map Prod.fst).Nodup → (data2.map Prod.fst).Nodup) := by
  induction keys generalizing data with
  | nil => exact ⟨data, rfl, fun k _ => rfl, by simp, fun h => h⟩
  | cons key rest ih =>
      rcases Option.isSome_iff_exists.mp (hst key (by simp)) with ⟨old, hold⟩
      rcases Option.isSome_iff_exists.mp (hdt key (by simp)) with ⟨nw, hnw⟩
      have hnd2 := List.nodup_cons.mp hnodup
      set data1 : Dict := data.set key (blendVal dv old nw) with hdata1
      rcases ih data1 hnd2.2
          (fun k2 hk2 => hst k2 (by simp [hk2]))
          (fun k2 hk2 => Dict.lookup_set_isSome data key k2 _ (hdt k2 (by simp [hk2])))
        with ⟨data2, hrun, hframe, hspec, hnd3⟩
      refine ⟨data2, ?_, ?_, ?_, ?_⟩
      · simp only [damp_data, hold, hnw]
        exact hrun
      · intro k hk
        rw [hframe k (fun hc => hk (by simp [hc])), hdata1,
          Dict.lookup_set_ne data key k _ (fun hc => hk (by simp [hc]))]
      · intro key2 hkey2 old2 nw2 hold2 hnw2
        rcases List.mem_cons.mp hkey2 with h2 | h2
        · subst h2
          rw [hold] at hold2
          have ho2 : old2 = old := by injection hold2 with h3; exact h3.symm
          rw [hnw] at hnw2
          have hn2 : nw2 = nw := by injection hnw2 with h3; exact h3.symm
          subst ho2
          subst hn2
          rw [hframe key2 hnd2.1, hdata1, Dict.lookup_set_self]
        · have hne : key2 ≠ key := fun hc => hnd2.1 (hc ▸ h2)
          apply hspec key2 h2 old2 nw2 hold2
          rw [hdata1, Dict.lookup_set_ne data key key2 _ hne]
          exact hnw2
      · intro hdn
        exact hnd3 (Dict.keys_set_nodup data key _ hdn)

/-- C4: the damping blend is `damping * v_old + (1 - damping) * v_new` on
every message field of a damped edge; damping `0.0` is falsy, so the edge is
processed bit-for-bit as if damping were unconfigured (`None`); and damping
`1.0` leaves every committed message field equal to its stored value
provided the proposed values are finite — for a non-finite proposal the
blend `1.0 * v_old + 0.0 * inf` is NaN and the field does change (see the
counterexample), so the original unconditional never-changes clause is
false. -/
theorem C4_damping_blend_zero_one
    (keys : List String) (g : Graph) (s t : Node) (stored data : Dict)
    (hst : g.edgeData s t = some stored) :
    (∀ q : ℚ, q ≠ 0 → Dict.lookup stored "damping" = some (Val.v (FVal.fin q)) →
      keys.Nodup →
      (∀ key ∈ keys, (Dict.lookup stored key).isSome) →
      (∀ key ∈ keys, (Dict.lookup data key).isSome) →
      ∃ data2, damp_edge keys g (s, t, data) = .ok (s, t, data2) ∧
        (∀ key ∈ keys, ∀ old nw, Dict.lookup stored key = some old →
          Dict.lookup data key = some nw →
          Dict.lookup data2 key = some (blendVal (FVal.fin q) old nw)) ∧
        (∀ k, k ∉ keys → Dict.lookup data2 k = Dict.lookup data k))
    ∧
    ((Dict.lookup stored "damping" = some (Val.v (FVal.fin 0)) ∨
        Dict.lookup stored "damping" = some Val.none) →
      damp_edge keys g (s, t, data) = .ok (s, t, data))
    ∧
    (Dict.lookup stored "damping" = some (Val.v (FVal.fin 1)) →
      keys.Nodup → "n_iter" ∉ keys →
      (data.map Prod.fst).Nodup →
      ∀ k0 : ℕ, Dict.lookup stored "n_iter" = some (Val.n k0) →
      (∀ key ∈ keys, ∃ old nw, Dict.lookup stored key = some old ∧
        Dict.lookup data key = some nw ∧
        ((∃ o q2, old = Val.v o ∧ nw = Val.v (FVal.fin q2)) ∨
         (∃ os ns, old = Val.arr os ∧ nw = Val.arr ns ∧ os.length = ns.length ∧
           ∀ x ∈ ns, x.isFin = true))) →
      ∃ data2 g2, damp_edge keys g (s, t, data) = .ok (s, t, data2) ∧
        update_edge g (s, t, data2) = .ok g2 ∧
        ∃ d2, g2.edgeData s t = some d2 ∧
          ∀ key ∈ keys, Dict.lookup d2 key = Dict.lookup stored key) := by
  refine ⟨?_, ?_, ?_⟩
  · intro q hq hdamp hnodup hstp hdtp
    rcases damp_data_spec (FVal.fin q) stored keys data hnodup hstp hdtp
      with ⟨data2, hrun, hframe, hspec, _⟩
    have htr : (Val.v (FVal.fin q)).truthy = true := by simp [Val.truthy, hq]
    refine ⟨data2, ?_, hspec, hframe⟩
    simp only [damp_edge, hst, hdamp, htr, if_true, Val.toF, hrun, Except.map]
  · intro hdamp
    rcases hdamp with h | h
    · simp [damp_edge, hst, h, Val.truthy]
    · simp [damp_edge, hst, h, Val.truthy]
  · intro hdamp hnodup hniter hdn k0 hk0 hcomp
    have hstp : ∀ key ∈ keys, (Dict.lookup stored key).isSome := by
      intro key hk
      rcases hcomp key hk with ⟨old, nw, h1, _, _⟩
      simp [h1]
    have hdtp : ∀ key ∈ keys, (Dict.lookup data key).isSome := by
      intro key hk
      rcases hcomp key hk with ⟨old, nw, _, h2, _⟩
      simp [h2]
    rcases damp_data_spec (FVal.fin 1) stored keys data hnodup hstp hdtp
      with ⟨data2, hrun, hframe, hspec, hnd2⟩
    have htr : (Val.v (FVal.fin 1)).truthy = true := by simp [Val.truthy]
    have hdedge : damp_edge keys g (s, t, data) = .ok (s, t, data2) := by
      simp only [damp_edge, hst, hdamp, htr, if_true, Val.toF, hrun, Except.map]
    have hupd : update_edge g (s, t, data2)
        = .ok (g.setEdge s t (stored.merge (data2.set "n_iter" (Val.n (k0 + 1))))) :=
      update_edge_ok g (s, t, data2) stored k0 hst hk0
    refine ⟨data2, _, hdedge, hupd, stored.merge (data2.set "n_iter" (Val.n (k0 + 1))), ?_, ?_⟩
    · exact Graph.edgeData_setEdge_self g s t _ (by rw [hst]; rfl)
    · intro key hk
      rcases hcomp key hk with ⟨old, nw, hold, hnw, hshape⟩
      have hblend := hspec key hk old nw hold hnw
      rw [blendVal_one old nw hshape] at hblend
      have hne : key ≠ "n_iter" := fun hc => hniter (hc ▸ hk)
      have hlook : Dict.lookup (data2.set "n_iter" (Val.n (k0 + 1))) key = some old := by
        rw [Dict.lookup_set_ne data2 "n_iter" key _ hne]
        exact hblend
      rw [Dict.lookup_merge_nodup stored _ key old
        (Dict.keys_set_nodup data2 "n_iter" _ (hnd2 hdn)) hlook, hold]

/-- C4 witness: with stored `a = 2` and proposed `a = 4`, damping `1/2` commits
the blend `3`; damping `0.0` returns the batch untouched exactly like `None`
would; damping `1.0` commits the stored value `2` unchanged. -/
theorem C4_witness :
    (∃ data2, damp_edge ["a"]
        ({ nodes := [], edges := [(Node.fac 0, Node.var 0,
            [("damping", Val.v (FVal.fin (1/2))), ("n_iter", Val.n 0),
             ("a", Val.v (FVal.fin 2))])] } : Graph)
        (Node.fac 0, Node.var 0, [("a", Val.v (FVal.fin 4))])
        = Except.ok (Node.fac 0, Node.var 0, data2)
      ∧ Dict.lookup data2 "a" = some (Val.v (FVal.fin 3)))
    ∧ damp_edge ["a"]
        ({ nodes := [], edges := [(Node.fac 0, Node.var 0,
            [("damping", Val.v (FVal.fin 0)), ("n_iter", Val.n 0),
             ("a", Val.v (FVal.fin 2))])] } : Graph)
        (Node.fac 0, Node.var 0, [("a", Val.v (FVal.fin 4))])
        = Except.ok (Node.fac 0, Node.var 0, [("a", Val.v (FVal.fin 4))])
    ∧ (∃ data2 g2 d2, damp_edge ["a"]
        ({ nodes := [], edges := [(Node.fac 0, Node.var 0,
            [("damping", Val.v (FVal.fin 1)), ("n_iter", Val.n 0),
             ("a", Val.v (FVal.fin 2))])] } : Graph)
        (Node.fac 0, Node.var 0, [("a", Val.v (FVal.fin 4))])
        = Except.ok (Node.fac 0, Node.var 0, data2)
      ∧ update_edge
          ({ nodes := [], edges := [(Node.fac 0, Node.var 0,
              [("damping", Val.v (FVal.fin 1)), ("n_iter", Val.n 0),
               ("a", Val.v (FVal.fin 2))])] } : Graph)
          (Node.fac 0, Node.var 0, data2) = Except.ok g2
      ∧ g2.edgeData (Node.fac 0) (Node.var 0) = some d2
      ∧ Dict.lookup d2 "a" = some (Val.v (FVal.fin 2))) := by
  refine ⟨?_, ?_, ?_⟩
  · obtain ⟨data2, hrun, hspec, _⟩ :=
      (C4_damping_blend_zero_one ["a"]
        ({ nodes := [], edges := [(Node.fac 0, Node.var 0,
            [("damping", Val.v (FVal.fin (1/2))), ("n_iter", Val.n 0),
             ("a", Val.v (FVal.fin 2))])] } : Graph)
        (Node.fac 0) (Node.var 0)
        [("damping", Val.v (FVal.fin (1/2))), ("n_iter", Val.n 0), ("a", Val.v (FVal.fin 2))]
        [("a", Val.v (FVal.fin 4))] rfl).1
        (1/2) (by norm_num) rfl (by simp) (by decide) (by decide)
    refine ⟨data2, hrun, ?_⟩
    rw [hspec "a" (by simp) (Val.v (FVal.fin 2)) (Val.v (FVal.fin 4)) rfl rfl]
    simp only [blendVal, blendF, FVal.fmul, FVal.fadd, FVal.fneg, Option.some.injEq,
      Val.v.injEq, FVal.fin.injEq]
    norm_num
  · exact (C4_damping_blend_zero_one ["a"]
      ({ nodes := [], edges := [(Node.fac 0, Node.var 0,
          [("damping", Val.v (FVal.fin 0)), ("n_iter", Val.n 0),
           ("a", Val.v (FVal.fin 2))])] } : Graph)
      (Node.fac 0) (Node.var 0)
      [("damping", Val.v (FVal.fin 0)), ("n_iter", Val.n 0), ("a", Val.v (FVal.fin 2))]
      [("a", Val.v (FVal.fin 4))] rfl).2.1 (Or.inl rfl)
  · obtain ⟨data2, g2, hdamp, hupd, d2, hd2, hkeys⟩ :=
      (C4_damping_blend_zero_one ["a"]
        ({ nodes := [], edges := [(Node.fac 0, Node.var 0,
            [("damping", Val.v (FVal.fin 1)), ("n_iter", Val.n 0),
             ("a", Val.v (FVal.fin 2))])] } : Graph)
        (Node.fac 0) (Node.var 0)
        [("damping", Val.v (FVal.fin 1)), ("n_iter", Val.n 0), ("a", Val.v (FVal.fin 2))]
        [("a", Val.v (FVal.fin 4))] rfl).2.2
        rfl (by simp) (by decide) (by decide) 0 rfl
        (by
          intro key hk
          simp at hk
          rw [hk]
          exact ⟨Val.v (FVal.fin 2), Val.v (FVal.fin 4), rfl, rfl,
            Or.inl ⟨FVal.fin 2, 4, rfl, rfl⟩⟩)
    refine ⟨data2, g2, d2, hdamp, hupd, hd2, ?_⟩
    rw [hkeys "a" (by simp)]
    rfl

/-- Counterexample to the claim as written: an infinite proposed `a` passes
the validity check (so the input is reachable, per the C1/C6 corrections),
yet with damping `1.0` the blend evaluates `1.0 * v_old + 0.0 * inf = NaN`
and the commit stores NaN over the old value `2` — the message field of the
damping-`1.0` edge does change. -/
theorem C4_counterexample :
    checkEdge [("a", Val.v FVal.inf)] = .ok false ∧
    damp_edge ["a"] c4InfGraph
        (Node.fac 0, Node.var 0, [("a", Val.v FVal.inf)])
      = .ok (Node.fac 0, Node.var 0, [("a", Val.v FVal.nan)]) ∧
    ∃ g2, update_edge c4InfGraph
        (Node.fac 0, Node.var 0, [("a", Val.v FVal.nan)]) = .ok g2 ∧
      (g2.edgeData (Node.fac 0) (Node.var 0)).map (fun d => Dict.lookup d "a")
        = some (some (Val.v FVal.nan)) := by
  refine ⟨rfl, ?_, ?_⟩
  · have hb : blendVal (FVal.fin 1) (Val.v (FVal.fin 2)) (Val.v FVal.inf)
        = Val.v FVal.nan := by
      show Val.v (blendF (FVal.fin 1) (FVal.fin 2) FVal.inf) = Val.v FVal.nan
      norm_num [blendF, FVal.fmul, FVal.fadd, FVal.fneg]
    have hstep : damp_edge ["a"] c4InfGraph
        (Node.fac 0, Node.var 0, [("a", Val.v FVal.inf)])
        = .ok (Node.fac 0, Node.var 0,
            [("a", blendVal (FVal.fin 1) (Val.v (FVal.fin 2)) (Val.v FVal.inf))]) := rfl
    rw [hstep, hb]
  · exact ⟨_, rfl, rfl⟩

/-! ### configure_damping (claim C9) -/

theorem findEdge_map_dict (es : List Msg) (f : Msg → Dict) (s t : Node) :
    findEdge (es.map (fun e => (e.1, e.2.1, f e))) s t
      = (findEdge es s t).map (fun d => f (s, t, d)) := by
  induction es with
  | nil => rfl
  | cons e rest ih =>
      by_cases hc : e.1 = s ∧ e.2.1 = t
      · have he : e = (s, t, e.2.2) := by
          rcases e with ⟨e1, e2, e3⟩
          simp at hc ⊢
          exact ⟨hc.1, hc.2⟩
        simp only [List.map_cons, findEdge, if_pos hc, Option.map_some]
        rw [he]
        rfl
      · simp only [List.map_cons, findEdge, if_neg hc]
        exact ih

/-- C9: a scalar damping spec expands to one `fwd` and one `bwd` triple per
variable id; a triple with a unique matching variable node sets `damping` on
exactly the in-edges of that variable whose `direction` tag matches, leaving
every other edge dictionary untouched; a triple whose id matches zero or
several variable nodes raises the lookup assertion. -/
theorem C9_configure_damping (vars : List Node) (g : Graph) (q : ℚ) (id : ℕ) (dir : String) :
    (configure_damping vars g (.scalar q)
      = configure_damping vars g (.triples
          (vars.map (fun v => (v.nid, "fwd", q)) ++ vars.map (fun v => (v.nid, "bwd", q)))))
    ∧
    (∀ v : Node, (g.nodes.map Prod.fst).filter
        (fun node => node.isVariable && decide (node.nid = id)) = [v] →
      configure_damping vars g (.triples [(id, dir, q)])
        = .ok (apply_damping_triple g v dir q)
      ∧ ∀ s t d, g.edgeData s t = some d →
          (apply_damping_triple g v dir q).edgeData s t
            = some (if t = v ∧ Dict.lookup d "direction" = some (Val.s dir)
                then d.set "damping" (Val.v (FVal.fin q)) else d))
    ∧
    (((g.nodes.map Prod.fst).filter
        (fun node => node.isVariable && decide (node.nid = id))).length ≠ 1 →
      ∃ e, configure_damping vars g (.triples [(id, dir, q)]) = .error (e, g)) := by
  refine ⟨rfl, ?_, ?_⟩
  · intro v hv
    have hfind : find_variable_in_nodes id (g.nodes.map Prod.fst) = .ok v := by
      simp only [find_variable_in_nodes, hv]
    constructor
    · simp only [configure_damping, damping_triples, config_walk, hfind]
    · intro s t d hd
      show findEdge _ s t = _
      unfold apply_damping_triple
      rw [findEdge_map_dict g.edges
        (fun e => if e.2.1 = v ∧ e.2.2.lookup "direction" = some (.s dir)
          then e.2.2.set "damping" (.v (.fin q)) else e.2.2) s t]
      rw [show Graph.edgeData g s t = findEdge g.edges s t from rfl] at hd
      rw [hd]
      rfl
  · intro hlen
    rcases hfil : (g.nodes.map Prod.fst).filter
        (fun node => node.isVariable && decide (node.nid = id)) with _ | ⟨m, rest⟩
    · refine ⟨"AssertionError: len(matchs) == 1", ?_⟩
      simp only [configure_damping, damping_triples, config_walk, find_variable_in_nodes, hfil]
    · cases rest with
      | nil => exact absurd (by rw [hfil]; rfl) hlen
      | cons m2 rest2 =>
          refine ⟨"AssertionError: len(matchs) == 1", ?_⟩
          simp only [configure_damping, damping_triples, config_walk,
            find_variable_in_nodes, hfil]

/-- C9 witness: on a two-node graph a scalar spec reduces to the explicit
triples; the unique-match triple `(0, "fwd", 1/2)` sets damping on the single
matching in-edge; the id `5` matches nothing and raises. -/
theorem C9_witness :
    (configure_damping [Node.var 0]
        ({ nodes := [(Node.var 0, []), (Node.fac 0, [])],
           edges := [(Node.fac 0, Node.var 0, [("direction", Val.s "fwd")])] } : Graph)
        (.scalar (1/2))
      = configure_damping [Node.var 0]
        ({ nodes := [(Node.var 0, []), (Node.fac 0, [])],
           edges := [(Node.fac 0, Node.var 0, [("direction", Val.s "fwd")])] } : Graph)
        (.triples [(0, "fwd", 1/2), (0, "bwd", 1/2)]))
    ∧ (configure_damping [Node.var 0]
        ({ nodes := [(Node.var 0, []), (Node.fac 0, [])],
           edges := [(Node.fac 0, Node.var 0, [("direction", Val.s "fwd")])] } : Graph)
        (.triples [(0, "fwd", 1/2)])
      = .ok (apply_damping_triple
          ({ nodes := [(Node.var 0, []), (Node.fac 0, [])],
             edges := [(Node.fac 0, Node.var 0, [("direction", Val.s "fwd")])] } : Graph)
          (Node.var 0) "fwd" (1/2)))
    ∧ ((apply_damping_triple
          ({ nodes := [(Node.var 0, []), (Node.fac 0, [])],
             edges := [(Node.fac 0, Node.var 0, [("direction", Val.s "fwd")])] } : Graph)
          (Node.var 0) "fwd" (1/2)).edgeData (Node.fac 0) (Node.var 0)
        = some (Dict.set [("direction", Val.s "fwd")] "damping" (Val.v (FVal.fin (1/2)))))
    ∧ (∃ e, configure_damping [Node.var 0]
        ({ nodes := [(Node.var 0, []), (Node.fac 0, [])],
           edges := [(Node.fac 0, Node.var 0, [("direction", Val.s "fwd")])] } : Graph)
        (.triples [(5, "fwd", 1/2)])
      = .error (e,
          ({ nodes := [(Node.var 0, []), (Node.fac 0, [])],
             edges := [(Node.fac 0, Node.var 0, [("direction", Val.s "fwd")])] } : Graph))) := by
  have T := C9_configure_damping [Node.var 0]
    ({ nodes := [(Node.var 0, []), (Node.fac 0, [])],
       edges := [(Node.fac 0, Node.var 0, [("direction", Val.s "fwd")])] } : Graph)
    (1/2) 0 "fwd"
  have T5 := C9_configure_damping [Node.var 0]
    ({ nodes := [(Node.var 0, []), (Node.fac 0, [])],
       edges := [(Node.fac 0, Node.var 0, [("direction", Val.s "fwd")])] } : Graph)
    (1/2) 5 "fwd"
  have huniq := T.2.1 (Node.var 0) (by rfl)
  refine ⟨T.1, huniq.1, ?_, T5.2.2 (by decide)⟩
  have hedge := huniq.2 (Node.fac 0) (Node.var 0) [("direction", Val.s "fwd")] rfl
  rw [hedge]
  rfl

/-- C10: `update_message` merges each batch dictionary into the edge's stored
dictionary: `n_iter` is overwritten with its committed successor, fields
present in the batch are written, and every attribute absent from the batch —
`direction`, `tau`, `shape`, the configured `damping` — keeps its previous
value. -/
theorem C10_update_message_frame (g : Graph) (msg : List Msg)
    (hnodup : (msg.map edgeKey).Nodup)
    (hpres : ∀ m ∈ msg, ∃ d k, g.edgeData m.1 m.2.1 = some d ∧
      Dict.lookup d "n_iter" = some (Val.n k)) :
    ∃ g2, update_message g msg = .ok g2 ∧
      (∀ s t, (s, t) ∉ msg.map edgeKey → g2.edgeData s t = g.edgeData s t) ∧
      ∀ m ∈ msg, ∀ d k, g.edgeData m.1 m.2.1 = some d →
        Dict.lookup d "n_iter" = some (Val.n k) →
        ∃ d2, g2.edgeData m.1 m.2.1 = some d2 ∧
          Dict.lookup d2 "n_iter" = some (Val.n (k + 1)) ∧
          ((m.2.2.map Prod.fst).Nodup → ∀ k2 v, k2 ≠ "n_iter" →
            Dict.lookup m.2.2 k2 = some v → Dict.lookup d2 k2 = some v) ∧
          (∀ k2, k2 ≠ "n_iter" → Dict.lookup m.2.2 k2 = Option.none →
            Dict.lookup d2 k2 = Dict.lookup d k2) := by
  rcases update_message_effect g msg hnodup hpres with ⟨g2, hrun, _, _, hframe, htgt⟩
  refine ⟨g2, hrun, hframe, ?_⟩
  intro m hm d k hd hk
  refine ⟨d.merge (m.2.2.set "n_iter" (Val.n (k + 1))), htgt m hm d k hd hk, ?_, ?_, ?_⟩
  · exact Dict.lookup_merge_set_self d m.2.2 "n_iter" (Val.n (k + 1))
  · intro hbn k2 v hne hv
    have hset : Dict.lookup (m.2.2.set "n_iter" (Val.n (k + 1))) k2 = some v := by
      rw [Dict.lookup_set_ne m.2.2 "n_iter" k2 _ hne]
      exact hv
    exact Dict.lookup_merge_nodup d _ k2 v (Dict.keys_set_nodup m.2.2 "n_iter" _ hbn) hset
  · intro k2 hne habs
    apply Dict.lookup_merge_notin
    rw [Dict.lookup_set_ne m.2.2 "n_iter" k2 _ hne]
    exact habs

/-- C10 witness: committing a batch field `a = 9` on an edge bumps `n_iter`
from 3 to 4, writes `a`, and leaves `direction`, `damping` and `tau` as they
were. -/
theorem C10_witness :
    ∃ g2, update_message
        ({ nodes := [],
           edges := [(Node.fac 0, Node.var 0,
             [("direction", Val.s "fwd"), ("damping", Val.none), ("n_iter", Val.n 3),
              ("tau", Val.v (FVal.fin 2)), ("a", Val.v (FVal.fin 0))])] } : Graph)
        [(Node.fac 0, Node.var 0, [("a", Val.v (FVal.fin 9))])] = .ok g2 ∧
      ∃ d2, g2.edgeData (Node.fac 0) (Node.var 0) = some d2 ∧
        Dict.lookup d2 "n_iter" = some (Val.n 4) ∧
        Dict.lookup d2 "a" = some (Val.v (FVal.fin 9)) ∧
        Dict.lookup d2 "direction" = some (Val.s "fwd") ∧
        Dict.lookup d2 "damping" = some Val.none ∧
        Dict.lookup d2 "tau" = some (Val.v (FVal.fin 2)) := by
  obtain ⟨g2, hrun, _, htgt⟩ := C10_update_message_frame
    ({ nodes := [],
       edges := [(Node.fac 0, Node.var 0,
         [("direction", Val.s "fwd"), ("damping", Val.none), ("n_iter", Val.n 3),
          ("tau", Val.v (FVal.fin 2)), ("a", Val.v (FVal.fin 0))])] } : Graph)
    [(Node.fac 0, Node.var 0, [("a", Val.v (FVal.fin 9))])]
    (by simp)
    (by
      intro m hm
      simp at hm
      rw [hm]
      exact ⟨[("direction", Val.s "fwd"), ("damping", Val.none), ("n_iter", Val.n 3),
        ("tau", Val.v (FVal.fin 2)), ("a", Val.v (FVal.fin 0))], 3, rfl, rfl⟩)
  obtain ⟨d2, hd2, hn, hwrite, hkeep⟩ := htgt
    (Node.fac 0, Node.var 0, [("a", Val.v (FVal.fin 9))]) (by simp)
    [("direction", Val.s "fwd"), ("damping", Val.none), ("n_iter", Val.n 3),
     ("tau", Val.v (FVal.fin 2)), ("a", Val.v (FVal.fin 0))] 3 rfl rfl
  refine ⟨g2, hrun, d2, hd2, hn, ?_, ?_, ?_, ?_⟩
  · exact hwrite (by simp) "a" (Val.v (FVal.fin 9)) (by decide) rfl
  · rw [hkeep "direction" (by decide) rfl]
    rfl
  · rw [hkeep "damping" (by decide) rfl]
    rfl
  · rw [hkeep "tau" (by decide) rfl]
    rfl

/-! ### init_message_dag (claim C2) -/

theorem init_fold_notin (ini : Initializer) (v : Node) (keys : List String) (d : Dict)
    (k : String) (hk : k ∉ keys) :
    Dict.lookup (keys.foldl (fun d key =>
        d.set key (ini.init key (d.get "shape") v.nid (d.get "direction"))) d) k
      = Dict.lookup d k := by
  induction keys generalizing d with
  | nil => rfl
  | cons key rest ih =>
      have hne : k ≠ key := fun hc => hk (by simp [hc])
      rw [List.foldl_cons, ih _ (fun hc => hk (by simp [hc])),
        Dict.lookup_set_ne d key k _ hne]

theorem init_fold_mem (ini : Initializer) (v : Node) (keys : List String) (d : Dict)
    (k : String) (hk : k ∈ keys) (hnd : keys.Nodup)
    (hsh : "shape" ∉ keys) (hdir : "direction" ∉ keys) :
    Dict.lookup (keys.foldl (fun d key =>
        d.set key (ini.init key (d.get "shape") v.nid (d.get "direction"))) d) k
      = some (ini.init k (d.get "shape") v.nid (d.get "direction")) := by
  induction keys generalizing d with
  | nil => simp at hk
  | cons key rest ih =>
      have hnd2 := List.nodup_cons.mp hnd
      rw [List.foldl_cons]
      rcases List.mem_cons.mp hk with h | h
      · subst h
        rw [init_fold_notin ini v rest _ k hnd2.1, Dict.lookup_set_self]
      · have hkne : k ≠ key := fun hc => hnd2.1 (hc ▸ h)
        have hshne : "shape" ≠ key := fun hc => hsh (by simp [hc])
        have hdirne : "direction" ≠ key := fun hc => hdir (by simp [hc])
        rw [ih _ h hnd2.2 (fun hc => hsh (by simp [hc])) (fun hc => hdir (by simp [hc]))]
        unfold Dict.get
        rw [Dict.lookup_set_ne d key "shape" _ hshne,
          Dict.lookup_set_ne d key "direction" _ hdirne]

/-- The attribute dictionary produced for one doubled edge by the
initialization loop, fully characterized. -/
theorem initEdgeData_spec (model : Graph) (keys : List String) (ini : Initializer)
    (s t : Node) (d0 : Dict)
    (hnd : keys.Nodup)
    (hkr : ∀ r ∈ (["direction", "damping", "n_iter", "tau", "shape"] : List String),
      r ∉ keys) :
    Dict.lookup (initEdgeData model keys ini s t d0) "direction"
        = Dict.lookup d0 "direction" ∧
    Dict.lookup (initEdgeData model keys ini s t d0) "damping"
        = Dict.lookup d0 "damping" ∧
    Dict.lookup (initEdgeData model keys ini s t d0) "n_iter"
        = Dict.lookup d0 "n_iter" ∧
    Dict.lookup (initEdgeData model keys ini s t d0) "tau"
        = some (((findNode model.nodes (if s.isVariable then s else t)).getD []).get "tau") ∧
    Dict.lookup (initEdgeData model keys ini s t d0) "shape"
        = some (((findNode model.nodes (if s.isVariable then s else t)).getD []).get "shape") ∧
    (∀ key ∈ keys, Dict.lookup (initEdgeData model keys ini s t d0) key
      = some (ini.init key
          (((findNode model.nodes (if s.isVariable then s else t)).getD []).get "shape")
          (if s.isVariable then s else t).nid (d0.get "direction"))) := by
  have hd := fun r hr => hkr r hr
  unfold initEdgeData
  set v := if s.isVariable then s else t with hv
  set xd := (findNode model.nodes v).getD [] with hxd
  set d1 : Dict := (d0.set "tau" (xd.get "tau")).set "shape" (xd.get "shape") with hd1
  have hshape1 : Dict.lookup d1 "shape" = some (xd.get "shape") := Dict.lookup_set_self _ _ _
  have htau1 : Dict.lookup d1 "tau" = some (xd.get "tau") := by
    rw [hd1, Dict.lookup_set_ne _ "shape" "tau" _ (by decide), Dict.lookup_set_self]
  have hdir1 : Dict.lookup d1 "direction" = Dict.lookup d0 "direction" := by
    rw [hd1, Dict.lookup_set_ne _ "shape" "direction" _ (by decide),
      Dict.lookup_set_ne _ "tau" "direction" _ (by decide)]
  have hdamp1 : Dict.lookup d1 "damping" = Dict.lookup d0 "damping" := by
    rw [hd1, Dict.lookup_set_ne _ "shape" "damping" _ (by decide),
      Dict.lookup_set_ne _ "tau" "damping" _ (by decide)]
  have hn1 : Dict.lookup d1 "n_iter" = Dict.lookup d0 "n_iter" := by
    rw [hd1, Dict.lookup_set_ne _ "shape" "n_iter" _ (by decide),
      Dict.lookup_set_ne _ "tau" "n_iter" _ (by decide)]
  refine ⟨?_, ?_, ?_, ?_, ?_, ?_⟩
  · rw [init_fold_notin ini v keys d1 "direction" (hd "direction" (by simp)), hdir1]
  · rw [init_fold_notin ini v keys d1 "damping" (hd "damping" (by simp)), hdamp1]
  · rw [init_fold_notin ini v keys d1 "n_iter" (hd "n_iter" (by simp)), hn1]
  · rw [init_fold_notin ini v keys d1 "tau" (hd "tau" (by simp)), htau1]
  · rw [init_fold_notin ini v keys d1 "shape" (hd "shape" (by simp)), hshape1]
  · intro key hkey
    rw [init_fold_mem ini v keys d1 key hkey hnd (hd "shape" (by simp)) (hd "direction" (by simp))]
    unfold Dict.get
    rw [hshape1, hdir1]
    rfl

/-- C2: after `init_message_dag` the message graph has exactly one
`fwd`-tagged and one `bwd`-tagged (reversed) edge per model-DAG edge — hence
twice the model's edge count — and every edge starts with `n_iter = 0`,
`damping = None`, `tau`/`shape` from the adjacent variable, and all message
keys populated by the initializer. -/
theorem C2_init_message_dag (mp : Engine) (ini : Initializer)
    (hnd : mp.message_keys.Nodup)
    (hkr : ∀ r ∈ (["direction", "damping", "n_iter", "tau", "shape"] : List String),
      r ∉ mp.message_keys)
    (hmodel : ∀ e ∈ mp.model_dag.edges,
      ∀ r ∈ (["direction", "damping", "n_iter"] : List String),
      Dict.lookup e.2.2 r = Option.none) :
    (init_message_dag mp ini).edges.length = 2 * mp.model_dag.edges.length ∧
    (∀ ed ∈ (init_message_dag mp ini).edges,
      Dict.lookup ed.2.2 "n_iter" = some (Val.n 0) ∧
      Dict.lookup ed.2.2 "damping" = some Val.none ∧
      (Dict.lookup ed.2.2 "direction" = some (Val.s "fwd") ∨
       Dict.lookup ed.2.2 "direction" = some (Val.s "bwd"))) ∧
    (∀ e ∈ mp.model_dag.edges,
      (∃ df, (e.1, e.2.1, df) ∈ (init_message_dag mp ini).edges ∧
        EdgeInitSpec mp ini e.1 e.2.1 "fwd" df) ∧
      (∃ db, (e.2.1, e.1, db) ∈ (init_message_dag mp ini).edges ∧
        EdgeInitSpec mp ini e.2.1 e.1 "bwd" db)) := by
  have hbase : ∀ e ∈ mp.model_dag.edges, ∀ base : Dict,
      Dict.lookup (base.merge e.2.2) "direction" = Dict.lookup base "direction" ∧
      Dict.lookup (base.merge e.2.2) "damping" = Dict.lookup base "damping" ∧
      Dict.lookup (base.merge e.2.2) "n_iter" = Dict.lookup base "n_iter" := by
    intro e he base
    exact ⟨Dict.lookup_merge_notin base e.2.2 "direction" (hmodel e he "direction" (by simp)),
      Dict.lookup_merge_notin base e.2.2 "damping" (hmodel e he "damping" (by simp)),
      Dict.lookup_merge_notin base e.2.2 "n_iter" (hmodel e he "n_iter" (by simp))⟩
  have hspec : ∀ e ∈ mp.model_dag.edges, ∀ (s t : Node) (base : Dict) (dir : String),
      Dict.lookup base "direction" = some (Val.s dir) →
      Dict.lookup base "damping" = some Val.none →
      Dict.lookup base "n_iter" = some (Val.n 0) →
      EdgeInitSpec mp ini s t dir
        (initEdgeData mp.model_dag mp.message_keys ini s t (base.merge e.2.2)) := by
    intro e he s t base dir hdir hdamp hn
    obtain ⟨h1, h2, h3, h4, h5, h6⟩ :=
      initEdgeData_spec mp.model_dag mp.message_keys ini s t (base.merge e.2.2) hnd hkr
    obtain ⟨hb1, hb2, hb3⟩ := hbase e he base
    refine ⟨by rw [h1, hb1, hdir], by rw [h2, hb2, hdamp], by rw [h3, hb3, hn], h4, h5, ?_⟩
    intro key hkey
    rw [h6 key hkey]
    unfold Dict.get
    rw [hb1, hdir]
    rfl
  refine ⟨?_, ?_, ?_⟩
  · simp [init_message_dag]
    ring
  · intro ed hed
    rcases List.mem_append.mp hed with h | h
    · rcases List.mem_map.mp h with ⟨e, he, heq⟩
      have hs := hspec e he e.1 e.2.1 fwdDefaults "fwd" rfl rfl rfl
      rw [← heq]
      exact ⟨hs.2.2.1, hs.2.1, Or.inl hs.1⟩
    · rcases List.mem_map.mp h with ⟨e, he, heq⟩
      have hs := hspec e he e.2.1 e.1 bwdDefaults "bwd" rfl rfl rfl
      rw [← heq]
      exact ⟨hs.2.2.1, hs.2.1, Or.inr hs.1⟩
  · intro e he
    constructor
    · exact ⟨initEdgeData mp.model_dag mp.message_keys ini e.1 e.2.1
          (Dict.merge fwdDefaults e.2.2),
        List.mem_append.mpr (Or.inl (List.mem_map.mpr ⟨e, he, rfl⟩)),
        hspec e he e.1 e.2.1 fwdDefaults "fwd" rfl rfl rfl⟩
    · exact ⟨initEdgeData mp.model_dag mp.message_keys ini e.2.1 e.1
          (Dict.merge bwdDefaults e.2.2),
        List.mem_append.mpr (Or.inr (List.mem_map.mpr ⟨e, he, rfl⟩)),
        hspec e he e.2.1 e.1 bwdDefaults "bwd" rfl rfl rfl⟩

/-- C2 witness: a one-edge model produces a two-edge message graph whose
`fwd` copy carries the expected defaults and initializer values. -/
theorem C2_witness :
    (init_message_dag wEngine default_initializer).edges.length = 2 ∧
    ∃ df, (Node.fac 0, Node.var 0, df)
        ∈ (init_message_dag wEngine default_initializer).edges ∧
      Dict.lookup df "direction" = some (Val.s "fwd") ∧
      Dict.lookup df "n_iter" = some (Val.n 0) ∧
      Dict.lookup df "damping" = some Val.none ∧
      Dict.lookup df "tau" = some (Val.v (FVal.fin 2)) ∧
      Dict.lookup df "a" = some (Val.v (FVal.fin 0)) := by
  have T := C2_init_message_dag wEngine default_initializer (by decide) (by decide)
    (by
      intro e he r hr
      have he2 : e = (Node.fac 0, Node.var 0, ([] : Dict)) := by
        simpa [wEngine, wModel, MessagePassing] using he
      rw [he2]
      simp at hr
      rcases hr with h | h | h <;> rw [h] <;> rfl)
  obtain ⟨hlen, _, hpairs⟩ := T
  obtain ⟨⟨df, hmem, hdir, hdamp, hn, htau, _, hkeys⟩, _⟩ :=
    hpairs (Node.fac 0, Node.var 0, []) (by decide)
  refine ⟨hlen.trans (by rfl), df, hmem, hdir, hn, hdamp, by rw [htau]; rfl, ?_⟩
  rw [hkeys "a" (by decide)]
  rfl

/-! ### The iterate loop (claims C7, C8) -/

theorem iterate_cold (algo : Algo) (mp : Engine) (max_iter : ℕ) (callback : Callback)
    (ini : Option Initializer) :
    iterate algo mp max_iter callback ini Option.none false
      = iter_loop algo callback max_iter max_iter 0
          { mp with
            message_dag := some (init_message_dag mp (ini.getD default_initializer)),
            n_iter := 0 } := rfl

theorem iter_loop_cb4 (algo : Algo) (callback : Callback) (max_iter : ℕ)
    (hcb : ∀ e i m, callback e i m = true ↔ i = 4) :
    ∀ (fuel i : ℕ) (mp e2 : Engine), mp.n_iter = i → i ≤ 4 → 5 ≤ i + fuel →
      iter_loop algo callback max_iter fuel i mp = .ok e2 → e2.n_iter = 5 := by
  intro fuel
  induction fuel with
  | zero =>
      intro i mp e2 _ hle hge _
      omega
  | succ fuel ih =>
      intro i mp e2 hn hle hge hok
      unfold iter_loop at hok
      rcases hdag : mp.message_dag with _ | g
      · rw [hdag] at hok
        exact absurd hok (by simp)
      · simp only [hdag] at hok
        rcases hit : one_iteration algo mp g with ⟨e, g2⟩ | g2
        · simp only [hit] at hok
          exact absurd hok (by simp)
        · simp only [hit] at hok
          by_cases hc : callback { mp with message_dag := some g2, n_iter := mp.n_iter + 1 }
              i max_iter = true
          · rw [if_pos hc] at hok
            have hi : i = 4 := (hcb _ i max_iter).mp hc
            have he2 : e2 = { mp with message_dag := some g2, n_iter := mp.n_iter + 1 } := by
              injection hok with h
              exact h.symm
            rw [he2]
            show mp.n_iter + 1 = 5
            omega
          · rw [if_neg hc] at hok
            have hi : i ≠ 4 := fun hc2 => hc ((hcb _ i max_iter).mpr hc2)
            exact ih (i + 1) _ e2 (by simp [hn]) (by omega) (by omega) hok

/-- C7: a cold-start `iterate` with `max_iter >= 5` and a callback that stops
exactly at iteration index 4 performs exactly 5 completed iterations (indices
0..4) whenever it returns normally, and reports `n_iter = 5` on the engine. -/
theorem C7_five_iterations (algo : Algo) (mp : Engine) (max_iter : ℕ)
    (callback : Callback) (ini : Option Initializer) (e2 : Engine)
    (hmax : 5 ≤ max_iter)
    (hcb : ∀ e i m, callback e i m = true ↔ i = 4)
    (hok : iterate algo mp max_iter callback ini Option.none false = .ok e2) :
    e2.n_iter = 5 := by
  rw [iterate_cold] at hok
  exact iter_loop_cb4 algo callback max_iter hcb max_iter 0 _ e2 rfl (by omega) (by omega) hok

/-- C7 witness: the concrete one-edge engine with the identity-like algorithm
and the `i == 4` callback runs to a normal stop after exactly 5 iterations. -/
theorem C7_witness :
    ∃ e2, iterate wAlgo wEngine 8 (fun _ i _ => decide (i = 4))
        Option.none Option.none false = .ok e2 ∧ e2.n_iter = 5 := by
  have hcb : ∀ (e : Engine) (i m : ℕ),
      (fun (_ : Engine) i (_ : ℕ) => decide (i = 4)) e i m = true ↔ i = 4 := by
    intro e i m
    simp
  have hok : (iterate wAlgo wEngine 8 (fun _ i _ => decide (i = 4))
      Option.none Option.none false).isOk = true := by rfl
  rcases hrun : iterate wAlgo wEngine 8 (fun _ i _ => decide (i = 4))
      Option.none Option.none false with er | e2
  · rw [hrun] at hok
    exact absurd hok (by simp [Except.isOk, Except.toBool])
  · exact ⟨e2, rfl,
      C7_five_iterations wAlgo wEngine 8 _ Option.none e2 (by omega) hcb hrun⟩

theorem nIter_some_iff (g : Graph) (s t : Node) (k : ℕ) :
    nIter g s t = some k ↔
      ∃ d, g.edgeData s t = some d ∧ Dict.lookup d "n_iter" = some (Val.n k) := by
  unfold nIter
  rcases hd : g.edgeData s t with _ | d
  · simp
  · rcases hk : Dict.lookup d "n_iter" with _ | v
    · simp [hk]
    · cases v <;> simp [hk]

theorem MonoRel_refl (g : Graph) : MonoRel g g := fun _ _ k h => ⟨k, le_refl k, h⟩

theorem MonoRel_trans {g1 g2 g3 : Graph} (h1 : MonoRel g1 g2) (h2 : MonoRel g2 g3) :
    MonoRel g1 g3 := by
  intro s t k h
  rcases h1 s t k h with ⟨k2, hle, hh⟩
  rcases h2 s t k2 hh with ⟨k3, hle2, h3⟩
  exact ⟨k3, le_trans hle hle2, h3⟩

theorem MonoRel_of_nIter_eq {g g2 : Graph} (h : ∀ s t, nIter g2 s t = nIter g s t) :
    MonoRel g g2 :=
  fun s t k hk => ⟨k, le_refl k, by rw [h]; exact hk⟩

theorem update_edge_mono (g g2 : Graph) (m : Msg) (h : update_edge g m = .ok g2) :
    MonoRel g g2 := by
  unfold update_edge at h
  rcases hd : g.edgeData m.1 m.2.1 with _ | d
  · simp only [hd] at h
    exact absurd h (by simp)
  · rcases hk : Dict.lookup d "n_iter" with _ | v
    · simp only [hd, hk] at h
      exact absurd h (by simp)
    · cases v with
      | n k =>
          simp only [hd, hk] at h
          have hg2 : g2 = g.setEdge m.1 m.2.1 (d.merge (m.2.2.set "n_iter" (Val.n (k + 1)))) := by
            injection h with hh
            exact hh.symm
          subst hg2
          intro s t k0 h0
          rcases (nIter_some_iff g s t k0).mp h0 with ⟨d0, hd0, hk0⟩
          by_cases hc : s = m.1 ∧ t = m.2.1
          · have hd0d : d0 = d := by
              rw [hc.1, hc.2, hd] at hd0
              injection hd0 with hh
              exact hh.symm
            have hkk : k0 = k := by
              rw [hd0d, hk] at hk0
              simp only [Option.some.injEq, Val.n.injEq] at hk0
              omega
            refine ⟨k + 1, by omega, (nIter_some_iff _ s t (k + 1)).mpr ?_⟩
            refine ⟨d.merge (m.2.2.set "n_iter" (Val.n (k + 1))), ?_,
              Dict.lookup_merge_set_self d m.2.2 "n_iter" (Val.n (k + 1))⟩
            rw [hc.1, hc.2]
            exact Graph.edgeData_setEdge_self g m.1 m.2.1 _ (by rw [hd]; rfl)
          · refine ⟨k0, le_refl k0, (nIter_some_iff _ s t k0).mpr ?_⟩
            rw [Graph.edgeData_setEdge_ne g m.1 m.2.1 _ s t hc]
            exact ⟨d0, hd0, hk0⟩
      | v x =>
          simp only [hd, hk] at h
          exact absurd h (by simp)
      | arr xs =>
          simp only [hd, hk] at h
          exact absurd h (by simp)
      | s str =>
          simp only [hd, hk] at h
          exact absurd h (by simp)
      | none =>
          simp only [hd, hk] at h
          exact absurd h (by simp)

theorem update_message_mono (msg : List Msg) : ∀ (g g2 : Graph),
    update_message g msg = .ok g2 → MonoRel g g2 := by
  induction msg with
  | nil =>
      intro g g2 h
      have : g = g2 := by injection h
      rw [← this]
      exact MonoRel_refl g
  | cons m rest ih =>
      intro g g2 h
      unfold update_message at h
      rcases he : update_edge g m with e | g1
      · simp only [he] at h
        exact absurd h (by simp)
      · simp only [he] at h
        exact MonoRel_trans (update_edge_mono g g1 m he) (ih g1 g2 h)

theorem sweep_node_mono (keys : List String) (produce : Node → List Msg → List Msg)
    (g : Graph) (n : Node) (g2 : Graph) (h : sweep_node keys produce g n = .ok g2) :
    MonoRel g g2 := by
  unfold sweep_node at h
  rcases hc : check_message (produce n (g.in_edges n)) (g.in_edges n) with e | ws
  · simp only [hc] at h
    exact absurd h (by simp)
  · simp only [hc] at h
    rcases hdm : damp_message keys g (produce n (g.in_edges n)) with e | damped
    · simp only [hdm] at h
      exact absurd h (by simp)
    · simp only [hdm] at h
      exact update_message_mono damped g g2 h

theorem sweep_mono (keys : List String) (produce : Node → List Msg → List Msg)
    (ordering : List Node) : ∀ (g g2 : Graph),
    sweep keys produce g ordering = .ok g2 → MonoRel g g2 := by
  induction ordering with
  | nil =>
      intro g g2 h
      have : g = g2 := by injection h
      rw [← this]
      exact MonoRel_refl g
  | cons n rest ih =>
      intro g g2 h
      unfold sweep at h
      rcases hs : sweep_node keys produce g n with e | g1
      · simp only [hs] at h
        exact absurd h (by simp)
      · simp only [hs] at h
        exact MonoRel_trans (sweep_node_mono keys produce g n g1 hs) (ih g1 g2 h)

theorem update_variables_edges (algo : Algo) (l : List Node) : ∀ (g g2 : Graph),
    update_variables algo g l = .ok g2 → g2.edges = g.edges := by
  induction l with
  | nil =>
      intro g g2 h
      have : g = g2 := by injection h
      rw [← this]
  | cons v rest ih =>
      intro g g2 h
      unfold update_variables at h
      rcases hn : g.nodeData v with _ | d
      · simp only [hn] at h
        exact absurd h (by simp)
      · simp only [hn] at h
        rw [ih _ g2 h]
        rfl

theorem nIter_eq_of_edges {g g2 : Graph} (h : g2.edges = g.edges) (s t : Node) :
    nIter g2 s t = nIter g s t := by
  unfold nIter Graph.edgeData
  rw [h]

theorem except_bind_inv {A B C : Type} (x : Except A B) (f : B → Except A C) (c : C)
    (h : (x >>= f) = .ok c) : ∃ b, x = .ok b ∧ f b = .ok c := by
  cases x with
  | error e => simp [Bind.bind, Except.bind] at h
  | ok b => exact ⟨b, rfl, by simpa [Bind.bind, Except.bind] using h⟩

theorem one_iteration_mono (algo : Algo) (mp : Engine) (g g2 : Graph)
    (h : one_iteration algo mp g = .ok g2) : MonoRel g g2 := by
  unfold one_iteration at h
  rcases except_bind_inv _ _ _ h with ⟨gf, hf, h2⟩
  rcases except_bind_inv _ _ _ h2 with ⟨gb, hb, h3⟩
  have m1 := sweep_mono mp.message_keys algo.forward mp.forward_ordering g gf hf
  have m2 := sweep_mono mp.message_keys algo.backward mp.backward_ordering gf gb hb
  have m3 := MonoRel_of_nIter_eq
    (fun s t => nIter_eq_of_edges (update_variables_edges algo mp.vars gb g2 h3) s t)
  exact MonoRel_trans m1 (MonoRel_trans m2 m3)

theorem iter_loop_mono (algo : Algo) (callback : Callback) (max_iter : ℕ) :
    ∀ (fuel i : ℕ) (mp e2 : Engine),
    iter_loop algo callback max_iter fuel i mp = .ok e2 →
    mp.n_iter ≤ e2.n_iter ∧
      ∀ g, mp.message_dag = some g →
        ∃ g2, e2.message_dag = some g2 ∧ MonoRel g g2 := by
  intro fuel
  induction fuel with
  | zero =>
      intro i mp e2 h
      have : mp = e2 := by injection h
      subst this
      exact ⟨le_refl _, fun g hg => ⟨g, hg, MonoRel_refl g⟩⟩
  | succ fuel ih =>
      intro i mp e2 h
      unfold iter_loop at h
      rcases hdag : mp.message_dag with _ | g
      · rw [hdag] at h
        exact absurd h (by simp)
      · simp only [hdag] at h
        rcases hit : one_iteration algo mp g with ⟨e, gerr⟩ | g2
        · simp only [hit] at h
          exact absurd h (by simp)
        · simp only [hit] at h
          by_cases hc : callback { mp with message_dag := some g2, n_iter := mp.n_iter + 1 }
              i max_iter = true
          · rw [if_pos hc] at h
            have he2 : e2 = { mp with message_dag := some g2, n_iter := mp.n_iter + 1 } := by
              injection h with hh
              exact hh.symm
            subst he2
            refine ⟨by simp, fun g0 hg0 => ⟨g2, rfl, ?_⟩⟩
            have hg : g0 = g := by injection hg0 with hh; exact hh.symm
            subst hg
            exact one_iteration_mono algo mp g0 g2 hit
          · rw [if_neg hc] at h
            rcases ih (i + 1) _ e2 h with ⟨hle, hrel⟩
            rcases hrel g2 rfl with ⟨g3, hg3, hrel2⟩
            refine ⟨?_, fun g0 hg0 => ⟨g3, hg3, ?_⟩⟩
            · simp at hle
              omega
            · have hg : g0 = g := by injection hg0 with hh; exact hh.symm
              subst hg
              exact MonoRel_trans (one_iteration_mono algo mp g0 g2 hit) hrel2

theorem nIter_apply_damping (g : Graph) (v : Node) (dir : String) (q : ℚ) (s t : Node) :
    nIter (apply_damping_triple g v dir q) s t = nIter g s t := by
  have hmap : (apply_damping_triple g v dir q).edgeData s t
      = (findEdge g.edges s t).map (fun d =>
          if (s, t, d).2.1 = v ∧ Dict.lookup (s, t, d).2.2 "direction" = some (Val.s dir)
          then Dict.set (s, t, d).2.2 "damping" (Val.v (FVal.fin q)) else (s, t, d).2.2) :=
    findEdge_map_dict g.edges _ s t
  unfold nIter
  rw [hmap, show Graph.edgeData g s t = findEdge g.edges s t from rfl]
  rcases findEdge g.edges s t with _ | d
  · rfl
  · show (match Dict.lookup (if t = v ∧ Dict.lookup d "direction" = some (Val.s dir)
        then Dict.set d "damping" (Val.v (FVal.fin q)) else d) "n_iter" with
      | some (Val.n k) => some k
      | _ => (Option.none : Option ℕ))
      = (match Dict.lookup d "n_iter" with
      | some (Val.n k) => some k
      | _ => (Option.none : Option ℕ))
    by_cases hc : t = v ∧ Dict.lookup d "direction" = some (Val.s dir)
    · rw [if_pos hc, Dict.lookup_set_ne d "damping" "n_iter" _ (by decide)]
    · rw [if_neg hc]

theorem config_walk_nIter (l : List (ℕ × String × ℚ)) : ∀ (g g2 : Graph),
    config_walk g l = .ok g2 → ∀ s t, nIter g2 s t = nIter g s t := by
  induction l with
  | nil =>
      intro g g2 h
      have : g = g2 := by injection h
      rw [← this]
      exact fun s t => rfl
  | cons tr rest ih =>
      intro g g2 h
      unfold config_walk at h
      rcases hf : find_variable_in_nodes tr.1 (g.nodes.map (fun p => p.1)) with e | v
      · simp only [hf] at h
        exact absurd h (by simp)
      · simp only [hf] at h
        intro s t
        rw [ih _ g2 h s t, nIter_apply_damping g v tr.2.1 tr.2.2 s t]

/-- C8: requesting a warm start on an engine whose message graph was never
initialized raises the configuration error before any sweep runs (the error
carries the untouched engine); on an initialized engine, two successive
warm-started `iterate` calls never reinitialize: the global `n_iter` counter
is monotone across both calls and no edge's `n_iter` is ever reset. -/
theorem C8_warm_start (algo : Algo) (mp : Engine) (max_iter max_iter2 : ℕ)
    (callback callback2 : Callback) (ini ini2 : Option Initializer)
    (damping damping2 : Option DampSpec) :
    (mp.message_dag = Option.none →
      iterate algo mp max_iter callback ini damping true
        = .error ("ValueError: message dag was never initialized", mp))
    ∧
    (∀ g0 e1, mp.message_dag = some g0 →
      iterate algo mp max_iter callback ini damping true = .ok e1 →
      mp.n_iter ≤ e1.n_iter ∧ ∃ g1, e1.message_dag = some g1 ∧ MonoRel g0 g1)
    ∧
    (∀ g0 e1 e2, mp.message_dag = some g0 →
      iterate algo mp max_iter callback ini damping true = .ok e1 →
      iterate algo e1 max_iter2 callback2 ini2 damping2 true = .ok e2 →
      mp.n_iter ≤ e1.n_iter ∧ e1.n_iter ≤ e2.n_iter ∧
        ∀ s t k, nIter g0 s t = some k →
          ∃ k2 g2, k ≤ k2 ∧ e2.message_dag = some g2 ∧ nIter g2 s t = some k2) := by
  have warm_ok : ∀ (mpx : Engine) (mi : ℕ) (cb : Callback) (inx : Option Initializer)
      (dx : Option DampSpec) (gx : Graph) (ex : Engine),
      mpx.message_dag = some gx →
      iterate algo mpx mi cb inx dx true = .ok ex →
      mpx.n_iter ≤ ex.n_iter ∧ ∃ gy, ex.message_dag = some gy ∧ MonoRel gx gy := by
    intro mpx mi cb inx dx gx ex hdag hok
    unfold iterate at hok
    have hw : warm_or_init mpx (inx.getD default_initializer) true = .ok mpx := by
      simp [warm_or_init, hdag]
    simp only [hw] at hok
    rcases hid : iterate_damping mpx dx with e | mp3
    · simp only [hid] at hok
      exact absurd hok (by simp)
    · simp only [hid] at hok
      unfold iterate_damping at hid
      by_cases hdt : dampingTruthy dx = true
      · rcases dx with _ | spec
        · simp [dampingTruthy] at hdt
        · rw [if_pos hdt] at hid
          simp only [hdag] at hid
          rcases hcfg : configure_damping mpx.vars gx spec with ⟨e, gerr⟩ | gcfg
          · simp only [hcfg] at hid
            exact absurd hid (by simp)
          · simp only [hcfg] at hid
            have hmp3 : mp3 = { mpx with message_dag := some gcfg } := by
              injection hid with hh
              exact hh.symm
            subst hmp3
            rcases iter_loop_mono algo cb mi mi 0
                { mpx with message_dag := some gcfg } ex hok with ⟨hle, hrel⟩
            rcases hrel gcfg rfl with ⟨gy, hgy, hrel2⟩
            refine ⟨by simpa using hle, gy, hgy, ?_⟩
            exact MonoRel_trans
              (MonoRel_of_nIter_eq (fun s t => config_walk_nIter _ gx gcfg hcfg s t))
              hrel2
      · rw [if_neg hdt] at hid
        have hmp3 : mp3 = mpx := by
          injection hid with hh
          exact hh.symm
        subst hmp3
        rcases iter_loop_mono algo cb mi mi 0 mp3 ex hok with ⟨hle, hrel⟩
        rcases hrel gx hdag with ⟨gy, hgy, hrel2⟩
        exact ⟨hle, gy, hgy, hrel2⟩
  refine ⟨?_, ?_, ?_⟩
  · intro hdag
    unfold iterate
    have hw : warm_or_init mp (ini.getD default_initializer) true
        = .error ("ValueError: message dag was never initialized", mp) := by
      simp [warm_or_init, hdag]
    rw [hw]
  · intro g0 e1 hdag hok
    exact warm_ok mp max_iter callback ini damping g0 e1 hdag hok
  · intro g0 e1 e2 hdag hok1 hok2
    rcases warm_ok mp max_iter callback ini damping g0 e1 hdag hok1 with ⟨hle1, g1, hg1, hrel1⟩
    rcases warm_ok e1 max_iter2 callback2 ini2 damping2 g1 e2 hg1 hok2 with ⟨hle2, g2, hg2, hrel2⟩
    refine ⟨hle1, hle2, ?_⟩
    intro s t k hk
    rcases MonoRel_trans hrel1 hrel2 s t k hk with ⟨k2, hkle, hk2⟩
    exact ⟨k2, g2, hkle, hg2, hk2⟩

/-- C8 witness: warm-starting the never-initialized fixture engine raises; a
cold run followed by two warm runs keeps the global counter and the edge
counters growing. -/
theorem C8_witness :
    (iterate wAlgo wEngine 3 (fun _ i _ => decide (i = 0)) Option.none Option.none true
      = .error ("ValueError: message dag was never initialized", wEngine))
    ∧ ∃ e1 e2 g0 g2 k2,
      iterate wAlgo wEngine 3 (fun _ i _ => decide (i = 0)) Option.none Option.none false
        = .ok e1
      ∧ e1.message_dag = some g0
      ∧ iterate wAlgo e1 3 (fun _ i _ => decide (i = 0)) Option.none Option.none true
        = .ok e2
      ∧ e1.n_iter ≤ e2.n_iter ∧ nIter g0 (Node.fac 0) (Node.var 0) = some 1
      ∧ 1 ≤ k2 ∧ e2.message_dag = some g2 ∧ nIter g2 (Node.fac 0) (Node.var 0) = some k2 := by
  have T := C8_warm_start wAlgo wEngine 3 3 (fun _ i _ => decide (i = 0))
    (fun _ i _ => decide (i = 0)) Option.none Option.none Option.none Option.none
  refine ⟨T.1 rfl, ?_⟩
  have hok1 : (iterate wAlgo wEngine 3 (fun _ i _ => decide (i = 0))
      Option.none Option.none false).isOk = true := by rfl
  rcases hrun1 : iterate wAlgo wEngine 3 (fun _ i _ => decide (i = 0))
      Option.none Option.none false with er | e1
  · rw [hrun1] at hok1
    exact absurd hok1 (by simp [Except.isOk, Except.toBool])
  · rcases hdag1 : e1.message_dag with _ | g0
    · exfalso
      have := (C8_warm_start wAlgo e1 3 3 (fun _ i _ => decide (i = 0))
        (fun _ i _ => decide (i = 0)) Option.none Option.none Option.none Option.none).1 hdag1
      have hok2 : (iterate wAlgo e1 3 (fun _ i _ => decide (i = 0))
          Option.none Option.none true).isOk = true := by
        rw [show e1 = (match iterate wAlgo wEngine 3 (fun _ i _ => decide (i = 0))
            Option.none Option.none false with
          | .ok x => x
          | .error _ => wEngine) from by rw [hrun1]]
        rfl
      rw [this] at hok2
      exact absurd hok2 (by simp [Except.isOk, Except.toBool])
    · rcases hrun2 : iterate wAlgo e1 3 (fun _ i _ => decide (i = 0))
          Option.none Option.none true with er | e2
      · exfalso
        have hok2 : (iterate wAlgo e1 3 (fun _ i _ => decide (i = 0))
            Option.none Option.none true).isOk = true := by
          rw [show e1 = (match iterate wAlgo wEngine 3 (fun _ i _ => decide (i = 0))
              Option.none Option.none false with
            | .ok x => x
            | .error _ => wEngine) from by rw [hrun1]]
          rfl
        rw [hrun2] at hok2
        exact absurd hok2 (by simp [Except.isOk, Except.toBool])
      · have T2 := (C8_warm_start wAlgo e1 3 3 (fun _ i _ => decide (i = 0))
          (fun _ i _ => decide (i = 0)) Option.none Option.none Option.none Option.none).2.1
          g0 e2 hdag1 hrun2
        rcases T2 with ⟨hle, g2, hg2, hrel⟩
        have hn1 : nIter g0 (Node.fac 0) (Node.var 0) = some 1 := by
          rw [show g0 = (match (match iterate wAlgo wEngine 3 (fun _ i _ => decide (i = 0))
              Option.none Option.none false with
            | .ok x => x
            | .error _ => wEngine).message_dag with
            | some g => g
            | Option.none => g0) from by rw [hrun1]; simp [hdag1]]
          rfl
        rcases hrel (Node.fac 0) (Node.var 0) 1 hn1 with ⟨k2, hkle, hk2⟩
        exact ⟨e1, e2, g0, g2, k2, rfl, hdag1, hrun2, hle, hn1, hkle, hg2, hk2⟩

/-! ### Per-iteration n_iter accounting (C3) -/

theorem except_isOk_exists {ε α : Type} (x : Except ε α) (h : x.isOk = true) :
    ∃ w, x = Except.ok w := by
  cases x with
  | error e => exact absurd h (by simp [Except.isOk, Except.toBool])
  | ok w => exact ⟨w, rfl⟩

theorem edgeDictOK_spec (keys : List String) (d : Dict) (h : edgeDictOK keys d = true) :
    (∃ k, Dict.lookup d "n_iter" = some (Val.n k)) ∧
    (Dict.lookup d "damping").isSome ∧
    ∀ key ∈ keys, (Dict.lookup d key).isSome := by
  unfold edgeDictOK at h
  rcases hn : Dict.lookup d "n_iter" with _ | v
  · rw [hn] at h
    simp at h
  · rw [hn] at h
    cases v with
    | n k =>
        simp only [Bool.and_eq_true, List.all_eq_true] at h
        exact ⟨⟨k, rfl⟩, h.1.2, fun key hkey => h.2 key hkey⟩
    | v fv => simp at h
    | arr l => simp at h
    | s str => simp at h
    | none => simp at h

theorem nIter_congr {g g2 : Graph} (s t : Node)
    (h : g2.edgeData s t = g.edgeData s t) : nIter g2 s t = nIter g s t := by
  unfold nIter
  rw [h]

theorem mem_out_keys_iff (g0 : Graph) (hnodup : (g0.edges.map edgeKey).Nodup)
    (n : Node) (dir : String) (s t : Node) :
    (s, t) ∈ (out_dir_edges g0 n dir).map edgeKey ↔
      s = n ∧ ∃ d0, g0.edgeData s t = some d0 ∧
        Dict.lookup d0 "direction" = some (Val.s dir) := by
  unfold out_dir_edges
  constructor
  · intro h
    rcases List.mem_map.mp h with ⟨e, he, hkey⟩
    rcases List.mem_filter.mp he with ⟨hmem, hp⟩
    rcases e with ⟨e1, e2, ed⟩
    simp only [Bool.and_eq_true, decide_eq_true_eq] at hp
    simp only [edgeKey, Prod.mk.injEq] at hkey
    have hfe := findEdge_of_mem_nodup g0.edges (e1, e2, ed) hnodup hmem
    refine ⟨by rw [← hkey.1]; exact hp.1, ed, ?_, hp.2⟩
    rw [← hkey.1, ← hkey.2]
    exact hfe
  · rintro ⟨hs, d0, hfind, hdir⟩
    have hmem : (s, t, d0) ∈ g0.edges := findEdge_mem g0.edges s t d0 hfind
    apply List.mem_map.mpr
    refine ⟨(s, t, d0), ?_, rfl⟩
    apply List.mem_filter.mpr
    refine ⟨hmem, ?_⟩
    simp [hs, hdir]

theorem damp_edge_ok_of (keys : List String) (g : Graph) (m : Msg) (stored : Dict)
    (hknodup : keys.Nodup)
    (hst : g.edgeData m.1 m.2.1 = some stored)
    (hdamp : (Dict.lookup stored "damping").isSome)
    (hstk : ∀ key ∈ keys, (Dict.lookup stored key).isSome)
    (hdtk : ∀ key ∈ keys, (Dict.lookup m.2.2 key).isSome) :
    ∃ data2, damp_edge keys g m = .ok (m.1, m.2.1, data2) ∧
      (∀ k, k ∉ keys → Dict.lookup data2 k = Dict.lookup m.2.2 k) ∧
      (∀ key ∈ keys, (Dict.lookup data2 key).isSome) := by
  rcases Option.isSome_iff_exists.mp hdamp with ⟨dval, hdv⟩
  by_cases htr : dval.truthy
  · rcases damp_data_spec dval.toF stored keys m.2.2 hknodup hstk hdtk with
      ⟨data2, hrun, hframe, hspec, -⟩
    refine ⟨data2, ?_, hframe, ?_⟩
    · simp [damp_edge, hst, hdv, htr, hrun, Except.map]
    · intro key hkey
      rcases Option.isSome_iff_exists.mp (hstk key hkey) with ⟨old, hold⟩
      rcases Option.isSome_iff_exists.mp (hdtk key hkey) with ⟨nw, hnw⟩
      rw [hspec key hkey old nw hold hnw]
      rfl
  · refine ⟨m.2.2, ?_, fun k _ => rfl, hdtk⟩
    simp [damp_edge, hst, hdv, htr]

theorem damp_message_ok_of (keys : List String) (g : Graph) (hknodup : keys.Nodup) :
    ∀ (msg : List Msg),
    (∀ m ∈ msg, ∃ stored, g.edgeData m.1 m.2.1 = some stored ∧
      (Dict.lookup stored "damping").isSome ∧
      ∀ key ∈ keys, (Dict.lookup stored key).isSome) →
    (∀ m ∈ msg, ∀ key ∈ keys, (Dict.lookup m.2.2 key).isSome) →
    ∃ msg2, damp_message keys g msg = .ok msg2 ∧
      msg2.map edgeKey = msg.map edgeKey ∧
      ∀ m2 ∈ msg2, ∃ m, m ∈ msg ∧ m2.1 = m.1 ∧ m2.2.1 = m.2.1 ∧
        (∀ k, k ∉ keys → Dict.lookup m2.2.2 k = Dict.lookup m.2.2 k) ∧
        (∀ key ∈ keys, (Dict.lookup m2.2.2 key).isSome) := by
  intro msg
  induction msg with
  | nil => exact fun _ _ => ⟨[], rfl, rfl, by simp⟩
  | cons m rest ih =>
      intro hst hdt
      rcases hst m (by simp) with ⟨stored, h1, h2, h3⟩
      rcases damp_edge_ok_of keys g m stored hknodup h1 h2 h3 (hdt m (by simp)) with
        ⟨data2, hde, hframe, hpres⟩
      rcases ih (fun m2 hm2 => hst m2 (by simp [hm2]))
        (fun m2 hm2 => hdt m2 (by simp [hm2])) with ⟨rest2, hdm, hkeys, helem⟩
      refine ⟨(m.1, m.2.1, data2) :: rest2, ?_, ?_, ?_⟩
      · simp only [damp_message, hde, hdm]
      · simp only [List.map_cons, hkeys]
        rfl
      · intro m2 hm2
        rcases List.mem_cons.mp hm2 with h4 | h4
        · subst h4
          exact ⟨m, by simp, rfl, rfl, hframe, hpres⟩
        · rcases helem m2 h4 with ⟨m3, hm3, he1, he2, hfr, hpr⟩
          exact ⟨m3, by simp [hm3], he1, he2, hfr, hpr⟩

theorem sweep_node_effect (keys : List String) (g0 : Graph) (dir : String)
    (produce : Node → List Msg → List Msg) (n : Node) (g : Graph)
    (hkdir : "direction" ∉ keys) (hkdamp : "damping" ∉ keys) (hknodup : keys.Nodup)
    (hnodup0 : (g0.edges.map edgeKey).Nodup)
    (hsim : Sim keys g0 g)
    (hbatch : batchOK keys g0 dir n (produce n (g.in_edges n)) = true) :
    ∃ g2, sweep_node keys produce g n = .ok g2 ∧ Sim keys g0 g2 ∧
      ∀ s t, nIter g2 s t =
        if s = n ∧ edgeDir g0 s t = some (Val.s dir)
        then (nIter g s t).map (fun k => k + 1)
        else nIter g s t := by
  set batch := produce n (g.in_edges n) with hbatchdef
  unfold batchOK at hbatch
  rw [Bool.and_eq_true] at hbatch
  rcases hbatch with ⟨hbkeys, hbelem0⟩
  rw [decide_eq_true_eq] at hbkeys
  rw [List.all_eq_true] at hbelem0
  have helem : ∀ m ∈ batch, (∃ w, checkEdge m.2.2 = .ok w) ∧
      Dict.lookup m.2.2 "direction" = Option.none ∧
      Dict.lookup m.2.2 "damping" = Option.none ∧
      ∀ key ∈ keys, (Dict.lookup m.2.2 key).isSome := by
    intro m hm
    have h := hbelem0 m hm
    simp only [Bool.and_eq_true, decide_eq_true_eq, List.all_eq_true] at h
    exact ⟨except_isOk_exists _ h.1.1.1, h.1.1.2, h.1.2, fun key hkey => h.2 key hkey⟩
  have hmemkeys : ∀ m ∈ batch, ∃ d0 d, g0.edgeData m.1 m.2.1 = some d0 ∧
      g.edgeData m.1 m.2.1 = some d ∧
      Dict.lookup d "direction" = Dict.lookup d0 "direction" ∧
      Dict.lookup d "damping" = Dict.lookup d0 "damping" ∧
      edgeDictOK keys d = true := by
    intro m hm
    have hk : (m.1, m.2.1) ∈ batch.map edgeKey := List.mem_map.mpr ⟨m, hm, rfl⟩
    rw [hbkeys] at hk
    rcases (mem_out_keys_iff g0 hnodup0 n dir m.1 m.2.1).mp hk with ⟨hs, d0, hfind, hdirv⟩
    rcases hsim.2.2 m.1 m.2.1 d0 hfind with ⟨d, hd, hdd, hda, hwf⟩
    exact ⟨d0, d, hfind, hd, hdd, hda, hwf⟩
  rcases check_walk_ok batch [] (fun m hm => (helem m hm).1) with ⟨ws, hws, -, -⟩
  rcases damp_message_ok_of keys g hknodup batch
    (fun m hm => by
      rcases hmemkeys m hm with ⟨d0, d, hfind, hd, hdd, hda, hwf⟩
      rcases edgeDictOK_spec keys d hwf with ⟨-, hds, hks⟩
      exact ⟨d, hd, hds, hks⟩)
    (fun m hm => (helem m hm).2.2.2) with ⟨msg2, hdm, hkeys2, helem2⟩
  have hupres : ∀ m2 ∈ msg2, ∃ d k, g.edgeData m2.1 m2.2.1 = some d ∧
      Dict.lookup d "n_iter" = some (Val.n k) := by
    intro m2 hm2
    have hk2 : (m2.1, m2.2.1) ∈ msg2.map edgeKey := List.mem_map.mpr ⟨m2, hm2, rfl⟩
    rw [hkeys2, hbkeys] at hk2
    rcases (mem_out_keys_iff g0 hnodup0 n dir m2.1 m2.2.1).mp hk2 with ⟨hs, d0, hfind, -⟩
    rcases hsim.2.2 m2.1 m2.2.1 d0 hfind with ⟨d, hd, -, -, hwf⟩
    rcases edgeDictOK_spec keys d hwf with ⟨⟨k, hk⟩, -, -⟩
    exact ⟨d, k, hd, hk⟩
  have hnodup2 : (msg2.map edgeKey).Nodup := by
    rw [hkeys2, hbkeys]
    unfold out_dir_edges
    exact List.Nodup.sublist ((List.filter_sublist g0.edges).map edgeKey) hnodup0
  rcases update_message_effect g msg2 hnodup2 hupres with
    ⟨g2, hupd, hgkeys, hgnodes, hframe, htarget⟩
  have hrun : sweep_node keys produce g n = .ok g2 := by
    show (match check_message batch (g.in_edges n) with
      | Except.error e => Except.error (e, g)
      | Except.ok _ =>
        match damp_message keys g batch with
        | Except.error e => Except.error (e, g)
        | Except.ok damped => update_message g damped) = Except.ok g2
    have hcm : check_message batch (g.in_edges n) = .ok ws := hws
    simp only [hcm, hdm]
    exact hupd
  have hsim2 : Sim keys g0 g2 := by
    refine ⟨by rw [hgkeys]; exact hsim.1, by rw [hgnodes]; exact hsim.2.1, ?_⟩
    intro s t d0 hfind0
    rcases hsim.2.2 s t d0 hfind0 with ⟨d, hd, hdd, hda, hwf⟩
    by_cases hmem : (s, t) ∈ msg2.map edgeKey
    · rcases List.mem_map.mp hmem with ⟨m2, hm2, hkey⟩
      rcases edgeDictOK_spec keys d hwf with ⟨⟨k, hk⟩, hdsome, hkeysome⟩
      have hs2 : m2.1 = s := congrArg Prod.fst hkey
      have ht2 : m2.2.1 = t := congrArg Prod.snd hkey
      have hdg : g.edgeData m2.1 m2.2.1 = some d := by rw [hs2, ht2]; exact hd
      have hmerge := htarget m2 hm2 d k hdg hk
      rw [hs2, ht2] at hmerge
      rcases helem2 m2 hm2 with ⟨m, hm, -, -, hfr, hpr⟩
      have hsetdir : Dict.lookup (m2.2.2.set "n_iter" (Val.n (k + 1))) "direction"
          = Option.none := by
        rw [Dict.lookup_set_ne m2.2.2 "n_iter" "direction" _ (by decide),
          hfr "direction" hkdir]
        exact (helem m hm).2.1
      have hsetdamp : Dict.lookup (m2.2.2.set "n_iter" (Val.n (k + 1))) "damping"
          = Option.none := by
        rw [Dict.lookup_set_ne m2.2.2 "n_iter" "damping" _ (by decide),
          hfr "damping" hkdamp]
        exact (helem m hm).2.2.1
      refine ⟨d.merge (m2.2.2.set "n_iter" (Val.n (k + 1))), hmerge, ?_, ?_, ?_⟩
      · rw [Dict.lookup_merge_notin d _ "direction" hsetdir]
        exact hdd
      · rw [Dict.lookup_merge_notin d _ "damping" hsetdamp]
        exact hda
      · unfold edgeDictOK
        rw [Dict.lookup_merge_set_self]
        simp only [Bool.and_eq_true, List.all_eq_true]
        refine ⟨⟨?_, ?_⟩, ?_⟩
        · trivial
        · rw [Dict.lookup_merge_notin d _ "damping" hsetdamp]
          exact hdsome
        · intro key hkey
          exact Dict.lookup_merge_isSome d _ key (hkeysome key hkey)
    · refine ⟨d, ?_, hdd, hda, hwf⟩
      rw [hframe s t hmem]
      exact hd
  refine ⟨g2, hrun, hsim2, ?_⟩
  intro s t
  by_cases hcond : s = n ∧ edgeDir g0 s t = some (Val.s dir)
  · rw [if_pos hcond]
    rcases hcond with ⟨hs, hdir⟩
    unfold edgeDir at hdir
    rcases hd0 : g0.edgeData s t with _ | d0
    · rw [hd0] at hdir
      exact absurd hdir (by simp)
    · rw [hd0] at hdir
      have hdirv : Dict.lookup d0 "direction" = some (Val.s dir) := hdir
      have hmem : (s, t) ∈ msg2.map edgeKey := by
        rw [hkeys2, hbkeys]
        exact (mem_out_keys_iff g0 hnodup0 n dir s t).mpr ⟨hs, d0, hd0, hdirv⟩
      rcases List.mem_map.mp hmem with ⟨m2, hm2, hkey⟩
      have hs2 : m2.1 = s := congrArg Prod.fst hkey
      have ht2 : m2.2.1 = t := congrArg Prod.snd hkey
      rcases hsim.2.2 s t d0 hd0 with ⟨d, hd, -, -, hwf⟩
      rcases edgeDictOK_spec keys d hwf with ⟨⟨k, hk⟩, -, -⟩
      have hdg : g.edgeData m2.1 m2.2.1 = some d := by rw [hs2, ht2]; exact hd
      have hmerge := htarget m2 hm2 d k hdg hk
      rw [hs2, ht2] at hmerge
      have h1 : nIter g s t = some k := (nIter_some_iff g s t k).mpr ⟨d, hd, hk⟩
      have h2 : nIter g2 s t = some (k + 1) := (nIter_some_iff g2 s t (k + 1)).mpr
        ⟨_, hmerge, Dict.lookup_merge_set_self d _ "n_iter" _⟩
      rw [h1, h2]
      rfl
  · rw [if_neg hcond]
    have hmem : (s, t) ∉ msg2.map edgeKey := by
      rw [hkeys2, hbkeys]
      intro hc
      rcases (mem_out_keys_iff g0 hnodup0 n dir s t).mp hc with ⟨hs, d0, hfind, hdirv⟩
      refine hcond ⟨hs, ?_⟩
      unfold edgeDir
      rw [hfind]
      exact hdirv
    exact nIter_congr s t (hframe s t hmem)

theorem sweep_effect (keys : List String) (g0 : Graph) (dir : String)
    (produce : Node → List Msg → List Msg)
    (hkdir : "direction" ∉ keys) (hkdamp : "damping" ∉ keys) (hknodup : keys.Nodup)
    (hnodup0 : (g0.edges.map edgeKey).Nodup) :
    ∀ (ord : List Node) (g : Graph), ord.Nodup → Sim keys g0 g →
    (∀ n ∈ ord, ∀ msgs, batchOK keys g0 dir n (produce n msgs) = true) →
    ∃ g2, sweep keys produce g ord = .ok g2 ∧ Sim keys g0 g2 ∧
      ∀ s t, nIter g2 s t =
        if s ∈ ord ∧ edgeDir g0 s t = some (Val.s dir)
        then (nIter g s t).map (fun k => k + 1)
        else nIter g s t := by
  intro ord
  induction ord with
  | nil =>
      intro g _ hsim _
      exact ⟨g, rfl, hsim, fun s t => by simp⟩
  | cons n rest ih =>
      intro g hnd hsim hb
      have hnd2 := List.nodup_cons.mp hnd
      rcases sweep_node_effect keys g0 dir produce n g hkdir hkdamp hknodup hnodup0 hsim
        (hb n (by simp) (g.in_edges n)) with ⟨g1, h1, hsim1, heff1⟩
      rcases ih g1 hnd2.2 hsim1 (fun n2 hn2 msgs => hb n2 (by simp [hn2]) msgs) with
        ⟨g2, h2, hsim2, heff2⟩
      refine ⟨g2, ?_, hsim2, ?_⟩
      · simp only [sweep, h1]
        exact h2
      · intro s t
        rw [heff2 s t, heff1 s t]
        by_cases hdir : edgeDir g0 s t = some (Val.s dir)
        · by_cases hsn : s = n
          · have hsr : s ∉ rest := by rw [hsn]; exact hnd2.1
            subst hsn
            simp [List.mem_cons, hsr, hdir]
          · by_cases hsr : s ∈ rest
            · simp [List.mem_cons, hsn, hsr, hdir]
            · simp [List.mem_cons, hsn, hsr, hdir]
        · simp [hdir]

theorem findNode_setNode_isSome (ns : List (Node × Dict)) (x : Node) (d : Dict) (y : Node) :
    (findNode (ns.map (fun p => if p.1 = x then (x, d) else p)) y).isSome
      = (findNode ns y).isSome := by
  induction ns with
  | nil => rfl
  | cons p rest ih =>
      by_cases hx : p.1 = x
      · by_cases hy : p.1 = y
        · have hxy : x = y := by rw [← hx, hy]
          simp [findNode, hx, hy, hxy]
        · have hxy : ¬ (x = y) := fun hc => hy (by rw [hx, hc])
          simp only [List.map_cons, if_pos hx, findNode, if_neg hy, if_neg hxy]
          exact ih
      · simp only [List.map_cons, if_neg hx, findNode]
        by_cases hy : p.1 = y
        · simp [if_pos hy]
        · simp only [if_neg hy]
          exact ih

theorem update_variables_ok (algo : Algo) : ∀ (l : List Node) (g : Graph),
    (∀ v ∈ l, (findNode g.nodes v).isSome) →
    ∃ g2, update_variables algo g l = .ok g2 ∧ g2.edges = g.edges := by
  intro l
  induction l with
  | nil => exact fun g _ => ⟨g, rfl, rfl⟩
  | cons v rest ih =>
      intro g hp
      rcases Option.isSome_iff_exists.mp (hp v (by simp)) with ⟨d, hd⟩
      set g1 : Graph := g.setNode v (d.merge (algo.update v (g.in_edges v))) with hg1
      have hpres2 : ∀ v2 ∈ rest, (findNode g1.nodes v2).isSome := by
        intro v2 hv2
        have h2 : g1.nodes
            = g.nodes.map (fun p => if p.1 = v
                then (v, d.merge (algo.update v (g.in_edges v))) else p) := rfl
        rw [h2, findNode_setNode_isSome]
        exact hp v2 (by simp [hv2])
      rcases ih g1 hpres2 with ⟨g2, hup, hed⟩
      refine ⟨g2, ?_, ?_⟩
      · have hnd : g.nodeData v = some d := hd
        simp only [update_variables, hnd]
        exact hup
      · rw [hed, hg1, Graph.setNode_edges]

theorem except_ok_bind {A B C : Type} (f : B → Except A C) (b : B) :
    (Except.ok b >>= f) = f b := rfl

theorem one_iteration_run (algo : Algo) (mp : Engine) (g gf gb g2 : Graph)
    (h1 : forward_message algo mp g = .ok gf)
    (h2 : backward_message algo mp gf = .ok gb)
    (h3 : update_variables algo gb mp.vars = .ok g2) :
    one_iteration algo mp g = .ok g2 := by
  unfold one_iteration
  simp only [h1, except_ok_bind, h2]
  exact h3

/-- C3: for every edge of the message graph, a successful `update_message`
touching that edge increments its `n_iter` by exactly 1, and any successful
`update_message` leaves every per-edge `n_iter` counter no smaller than
before; and after one full iteration (forward sweep, backward sweep, variable
update pass), assuming the concrete algorithm's `forward`/`backward` calls
produce exactly each node's outgoing forward/backward edges, every edge's
`n_iter` has increased by exactly 1 — never more, never less. -/
theorem C3_niter_increment (algo : Algo) (mp : Engine) (g0 : Graph)
    (hkdir : "direction" ∉ mp.message_keys) (hkdamp : "damping" ∉ mp.message_keys)
    (hknodup : mp.message_keys.Nodup)
    (hnodup0 : (g0.edges.map edgeKey).Nodup)
    (hWF0 : ∀ e ∈ g0.edges, edgeDictOK mp.message_keys e.2.2 = true)
    (hdir0 : ∀ e ∈ g0.edges, Dict.lookup e.2.2 "direction" = some (Val.s "fwd") ∨
      Dict.lookup e.2.2 "direction" = some (Val.s "bwd"))
    (hsrc : ∀ e ∈ g0.edges, e.1 ∈ mp.forward_ordering)
    (hordnd : mp.forward_ordering.Nodup)
    (hback : mp.backward_ordering = mp.forward_ordering.reverse)
    (hfwd : ∀ n ∈ mp.forward_ordering, ∀ msgs,
      batchOK mp.message_keys g0 "fwd" n (algo.forward n msgs) = true)
    (hbwd : ∀ n ∈ mp.backward_ordering, ∀ msgs,
      batchOK mp.message_keys g0 "bwd" n (algo.backward n msgs) = true)
    (hvars : ∀ v ∈ mp.vars, (findNode g0.nodes v).isSome) :
    (∀ (g g2 : Graph) (msg : List Msg), update_message g msg = .ok g2 → MonoRel g g2) ∧
    (∀ (g : Graph) (m : Msg) (g2 : Graph) (k : ℕ), update_edge g m = .ok g2 →
      nIter g m.1 m.2.1 = some k → nIter g2 m.1 m.2.1 = some (k + 1)) ∧
    ∃ g2, one_iteration algo mp g0 = .ok g2 ∧
      ∀ s t k, nIter g0 s t = some k → nIter g2 s t = some (k + 1) := by
  refine ⟨fun g g2 msg h => update_message_mono msg g g2 h, ?_, ?_⟩
  · intro g m g2 k hup hni
    rcases (nIter_some_iff g m.1 m.2.1 k).mp hni with ⟨d, hd, hk⟩
    rw [update_edge_ok g m d k hd hk] at hup
    have hg2 : g2 = g.setEdge m.1 m.2.1 (d.merge (m.2.2.set "n_iter" (Val.n (k + 1)))) := by
      injection hup with hh
      exact hh.symm
    subst hg2
    exact (nIter_some_iff _ m.1 m.2.1 (k + 1)).mpr
      ⟨_, Graph.edgeData_setEdge_self g m.1 m.2.1 _ (by rw [hd]; rfl),
        Dict.lookup_merge_set_self d _ "n_iter" _⟩
  · have hsim0 : Sim mp.message_keys g0 g0 := by
      refine ⟨rfl, rfl, fun s t d0 h => ⟨d0, h, rfl, rfl, ?_⟩⟩
      exact hWF0 (s, t, d0) (findEdge_mem g0.edges s t d0 h)
    rcases sweep_effect mp.message_keys g0 "fwd" algo.forward hkdir hkdamp hknodup hnodup0
      mp.forward_ordering g0 hordnd hsim0 hfwd with ⟨gf, hf, hsimf, hefff⟩
    have hbnd : mp.backward_ordering.Nodup := by
      rw [hback]
      exact List.nodup_reverse.mpr hordnd
    rcases sweep_effect mp.message_keys g0 "bwd" algo.backward hkdir hkdamp hknodup hnodup0
      mp.backward_ordering gf hbnd hsimf hbwd with ⟨gb, hbk, hsimb, heffb⟩
    have hpres : ∀ v ∈ mp.vars, (findNode gb.nodes v).isSome := by
      intro v hv
      rw [show gb.nodes = g0.nodes from hsimb.2.1]
      exact hvars v hv
    rcases update_variables_ok algo mp.vars gb hpres with ⟨g2, hu, hed⟩
    refine ⟨g2, one_iteration_run algo mp g0 gf gb g2 hf hbk hu, ?_⟩
    intro s t k hk
    rcases (nIter_some_iff g0 s t k).mp hk with ⟨d0, hd0, -⟩
    have hmem : (s, t, d0) ∈ g0.edges := findEdge_mem g0.edges s t d0 hd0
    have hsF : s ∈ mp.forward_ordering := hsrc (s, t, d0) hmem
    have hsB : s ∈ mp.backward_ordering := by
      rw [hback]
      exact List.mem_reverse.mpr hsF
    have hdir : edgeDir g0 s t = Dict.lookup d0 "direction" := by
      unfold edgeDir
      rw [show g0.edgeData s t = some d0 from hd0]
      rfl
    rcases hdir0 (s, t, d0) hmem with hF | hB
    · have hcondf : s ∈ mp.forward_ordering ∧ edgeDir g0 s t = some (Val.s "fwd") :=
        ⟨hsF, by rw [hdir]; exact hF⟩
      have h1 : nIter gf s t = some (k + 1) := by
        rw [hefff s t, if_pos hcondf, hk]
        rfl
      have hcondb : ¬ (s ∈ mp.backward_ordering ∧ edgeDir g0 s t = some (Val.s "bwd")) := by
        rintro ⟨-, hc⟩
        rw [hdir] at hc
        rw [hF] at hc
        exact absurd hc (by decide)
      have h2 : nIter gb s t = some (k + 1) := by
        rw [heffb s t, if_neg hcondb]
        exact h1
      rw [nIter_eq_of_edges hed s t, h2]
    · have hcondf : ¬ (s ∈ mp.forward_ordering ∧ edgeDir g0 s t = some (Val.s "fwd")) := by
        rintro ⟨-, hc⟩
        rw [hdir] at hc
        rw [hB] at hc
        exact absurd hc (by decide)
      have h1 : nIter gf s t = some k := by
        rw [hefff s t, if_neg hcondf]
        exact hk
      have hcondb : s ∈ mp.backward_ordering ∧ edgeDir g0 s t = some (Val.s "bwd") :=
        ⟨hsB, by rw [hdir]; exact hB⟩
      have h2 : nIter gb s t = some (k + 1) := by
        rw [heffb s t, if_pos hcondb, h1]
        rfl
      rw [nIter_eq_of_edges hed s t, h2]

/-- Closed instantiation of the C3 theorem: one full iteration over the
concrete two-edge fixture succeeds and bumps both edges from 0 to 1. -/
theorem C3_witness :
    ∃ g2, one_iteration wAlgo c3Engine c3Graph = .ok g2 ∧
      nIter g2 (Node.fac 0) (Node.var 0) = some 1 ∧
      nIter g2 (Node.var 0) (Node.fac 0) = some 1 := by
  rcases C3_niter_increment wAlgo c3Engine c3Graph
    (by decide) (by decide) (by decide) (by decide) (by decide) (by decide)
    (by decide) (by decide) (by decide)
    (by
      intro n hn msgs
      have hn2 : n = Node.fac 0 ∨ n = Node.var 0 := by
        rcases List.mem_cons.mp hn with h | h
        · exact Or.inl h
        · rcases List.mem_cons.mp h with h | h
          · exact Or.inr h
          · exact absurd h (List.not_mem_nil n)
      rcases hn2 with h | h <;> subst h
      · rw [show wAlgo.forward (Node.fac 0) msgs
            = [(Node.fac 0, Node.var 0,
                [("a", Val.v (FVal.fin 1)), ("b", Val.v (FVal.fin 2))])] from rfl]
        decide
      · rw [show wAlgo.forward (Node.var 0) msgs = ([] : List Msg) from rfl]
        decide)
    (by
      intro n hn msgs
      have hn2 : n = Node.var 0 ∨ n = Node.fac 0 := by
        rcases List.mem_cons.mp hn with h | h
        · exact Or.inl h
        · rcases List.mem_cons.mp h with h | h
          · exact Or.inr h
          · exact absurd h (List.not_mem_nil n)
      rcases hn2 with h | h <;> subst h
      · rw [show wAlgo.backward (Node.var 0) msgs
            = [(Node.var 0, Node.fac 0,
                [("a", Val.v (FVal.fin 3)), ("b", Val.v (FVal.fin 4))])] from rfl]
        decide
      · rw [show wAlgo.backward (Node.fac 0) msgs = ([] : List Msg) from rfl]
        decide)
    (by decide)
    with ⟨-, -, g2, hrun, heff⟩
  exact ⟨g2, hrun, heff (Node.fac 0) (Node.var 0) 0 (by decide),
    heff (Node.var 0) (Node.fac 0) 0 (by decide)⟩

/-! ### Check-before-commit abort (C6) -/

theorem except_err_bind {A B C : Type} (f : B → Except A C) (e : A) :
    ((Except.error e : Except A B) >>= f) = Except.error e := rfl

/-- C6: within each sweep, the validity check runs on the proposed
(pre-damping, pre-commit) message values of each node before they are damped
and committed — a NaN in a batch makes `sweep_node` fail with the graph
exactly as it was; consequently, if a forward implementation returns a NaN
precision-like field for some edge of the first node's batch, `iterate`
aborts before any further sweep executes, the message graph (hence the
offending edge's `n_iter`) is left unchanged, and the global `n_iter` is
unincremented.  (The Python check tests `np.isnan` only, so a merely
non-finite value does not abort: see the counterexample.) -/
theorem C6_nan_aborts_precommit :
    (∀ (keys : List String) (produce : Node → List Msg → List Msg) (g : Graph)
      (n : Node) (m : Msg) (a : FVal),
      m ∈ produce n (g.in_edges n) →
      Dict.lookup m.2.2 "a" = some (Val.v a) → a.isnan = true →
      ∃ er, sweep_node keys produce g n = .error (er, g)) ∧
    (∀ (algo : Algo) (mp : Engine) (g : Graph) (n0 : Node) (rest : List Node)
      (fuel : ℕ) (callback : Callback) (ini : Option Initializer)
      (m : Msg) (a : FVal),
      mp.message_dag = some g →
      mp.forward_ordering = n0 :: rest →
      m ∈ algo.forward n0 (g.in_edges n0) →
      Dict.lookup m.2.2 "a" = some (Val.v a) → a.isnan = true →
      ∃ er e2, iterate algo mp (fuel + 1) callback ini Option.none true
          = .error (er, e2) ∧
        e2.message_dag = some g ∧ e2.n_iter = mp.n_iter) := by
  have hA : ∀ (keys : List String) (produce : Node → List Msg → List Msg) (g : Graph)
      (n : Node) (m : Msg) (a : FVal),
      m ∈ produce n (g.in_edges n) →
      Dict.lookup m.2.2 "a" = some (Val.v a) → a.isnan = true →
      ∃ er, sweep_node keys produce g n = .error (er, g) := by
    intro keys produce g n m a hm ha hnan
    have hce : checkEdge m.2.2 = .error "ValueError: a is nan" := by
      simp [checkEdge, ha, hnan]
    rcases check_walk_error (produce n (g.in_edges n)) [] m _ hm hce with ⟨e2, he2⟩
    refine ⟨e2, ?_⟩
    show (match check_message (produce n (g.in_edges n)) (g.in_edges n) with
      | Except.error e => Except.error (e, g)
      | Except.ok _ =>
        match damp_message keys g (produce n (g.in_edges n)) with
        | Except.error e => Except.error (e, g)
        | Except.ok damped => update_message g damped) = Except.error (e2, g)
    have hcm : check_message (produce n (g.in_edges n)) (g.in_edges n) = .error e2 := he2
    simp only [hcm]
  refine ⟨hA, ?_⟩
  intro algo mp g n0 rest fuel callback ini m a hdag hord hm ha hnan
  rcases hA mp.message_keys algo.forward g n0 m a hm ha hnan with ⟨er, her⟩
  have hf : forward_message algo mp g = .error (er, g) := by
    show sweep mp.message_keys algo.forward g mp.forward_ordering = Except.error (er, g)
    rw [hord]
    simp only [sweep, her]
  have hone : one_iteration algo mp g = .error (er, g) := by
    unfold one_iteration
    simp only [hf, except_err_bind]
  refine ⟨er, { mp with message_dag := some g }, ?_, rfl, rfl⟩
  have hw : warm_or_init mp (ini.getD default_initializer) true = .ok mp := by
    simp [warm_or_init, hdag]
  have hd2 : iterate_damping mp Option.none = .ok mp := rfl
  show (match warm_or_init mp (ini.getD default_initializer) true with
    | Except.error e => Except.error e
    | Except.ok mp2 =>
      match iterate_damping mp2 Option.none with
      | Except.error e => Except.error e
      | Except.ok mp3 => iter_loop algo callback (fuel + 1) (fuel + 1) 0 mp3)
      = Except.error (er, { mp with message_dag := some g })
  simp only [hw, hd2]
  show (match mp.message_dag with
    | Option.none => Except.error ("AttributeError: message_dag", mp)
    | some g0 =>
      match one_iteration algo mp g0 with
      | Except.error (e, g2) => Except.error (e, { mp with message_dag := some g2 })
      | Except.ok g2 =>
        let mp2 : Engine := { mp with message_dag := some g2, n_iter := mp.n_iter + 1 }
        if callback mp2 0 (fuel + 1) then Except.ok mp2
        else iter_loop algo callback (fuel + 1) fuel (0 + 1) mp2)
      = Except.error (er, { mp with message_dag := some g })
  simp only [hdag, hone]

/-- Closed instantiation of the C6 theorem: a warm-started run over the
concrete fixture whose forward pass emits `a = NaN` aborts with the message
graph and global counter unchanged. -/
theorem C6_witness :
    ∃ er e2, iterate c6NanAlgo c6Engine 1 (fun _ _ _ => true)
        Option.none Option.none true = .error (er, e2) ∧
      e2.message_dag = some c6Graph ∧ e2.n_iter = 0 := by
  rcases C6_nan_aborts_precommit.2 c6NanAlgo c6Engine c6Graph (Node.fac 0) [Node.var 0]
      0 (fun _ _ _ => true) Option.none
      (Node.fac 0, Node.var 0, [("a", Val.v FVal.nan), ("b", Val.v (FVal.fin 2))])
      FVal.nan rfl rfl (by decide) rfl rfl with ⟨er, e2, hrun, hdagx, hniter⟩
  refine ⟨er, e2, hrun, hdagx, ?_⟩
  rw [hniter]
  rfl

/-- Counterexample to the claim as written: an infinite (non-finite but not
NaN) precision-like field `a` passes the check, so the warm-started run
completes successfully instead of aborting. -/
theorem C6_counterexample :
    (iterate c6InfAlgo c6Engine 1 (fun _ _ _ => true)
      Option.none Option.none true).isOk = true := by rfl

/-! ### update_objective: pair symmetry and A_model (C5) -/

theorem findNode_setNode_self (ns : List (Node × Dict)) (x : Node) (d : Dict)
    (h : (findNode ns x).isSome) :
    findNode (ns.map (fun p => if p.1 = x then (x, d) else p)) x = some d := by
  induction ns with
  | nil => simp [findNode] at h
  | cons p rest ih =>
      by_cases hp : p.1 = x
      · simp [findNode, hp]
      · simp only [List.map_cons, if_neg hp, findNode, if_neg hp]
        simp only [findNode, if_neg hp] at h
        exact ih h

theorem findNode_setNode_ne (ns : List (Node × Dict)) (x : Node) (d : Dict) (y : Node)
    (h : y ≠ x) :
    findNode (ns.map (fun p => if p.1 = x then (x, d) else p)) y = findNode ns y := by
  induction ns with
  | nil => rfl
  | cons p rest ih =>
      by_cases hp : p.1 = x
      · have h2 : ¬ (x = y) := fun hc => h hc.symm
        have h3 : ¬ (p.1 = y) := by rw [hp]; exact h2
        simp only [List.map_cons, if_pos hp, findNode, if_neg h2, if_neg h3]
        exact ih
      · simp only [List.map_cons, if_neg hp, findNode]
        by_cases hy : p.1 = y
        · rw [if_pos hy, if_pos hy]
        · rw [if_neg hy, if_neg hy]
          exact ih

theorem setNode_keys (ns : List (Node × Dict)) (x : Node) (d : Dict) :
    (ns.map (fun p => if p.1 = x then (x, d) else p)).map Prod.fst = ns.map Prod.fst := by
  rw [List.map_map]
  apply List.map_congr_left
  intro p _
  by_cases hp : p.1 = x
  · simp [hp]
  · simp [hp]

theorem findNode_of_mem_nodup (ns : List (Node × Dict)) (p : Node × Dict)
    (hnd : (ns.map Prod.fst).Nodup) (hp : p ∈ ns) :
    findNode ns p.1 = some p.2 := by
  induction ns with
  | nil => simp at hp
  | cons p0 rest ih =>
      rcases List.mem_cons.mp hp with h | h
      · subst h
        simp [findNode]
      · rw [List.map_cons] at hnd
        have hnd2 := List.nodup_cons.mp hnd
        have hne : ¬ (p0.1 = p.1) := by
          intro hc
          exact hnd2.1 (hc ▸ List.mem_map.mpr ⟨p, h, rfl⟩)
        simp only [findNode, if_neg hne]
        exact ih hnd2.2 h

theorem objective_nodes_effect (algo : Algo) : ∀ (l : List Node) (g : Graph),
    (∀ n ∈ l, (findNode g.nodes n).isSome) →
    ∃ g1, objective_nodes algo g l = .ok g1 ∧
      g1.edges = g.edges ∧
      g1.nodes.map Prod.fst = g.nodes.map Prod.fst ∧
      (∀ x ∈ l, ∃ d1, findNode g1.nodes x = some d1 ∧
        ∃ q, Dict.lookup d1 "A" = some (Val.v (FVal.fin q))) ∧
      (∀ x, x ∉ l → findNode g1.nodes x = findNode g.nodes x) := by
  intro l
  induction l with
  | nil => exact fun g _ => ⟨g, rfl, rfl, rfl, by simp, fun x _ => rfl⟩
  | cons n rest ih =>
      intro g hp
      rcases Option.isSome_iff_exists.mp (hp n (by simp)) with ⟨d, hd⟩
      set q0 : ℚ := algo.node_objective n (g.in_edges n) with hq0
      set g1m : Graph := g.setNode n (d.set "A" (Val.v (FVal.fin q0))) with hg1m
      have hnodesm : g1m.nodes = g.nodes.map
          (fun p => if p.1 = n then (n, d.set "A" (Val.v (FVal.fin q0))) else p) := rfl
      have hp2 : ∀ m ∈ rest, (findNode g1m.nodes m).isSome := by
        intro m hm
        rw [hnodesm, findNode_setNode_isSome]
        exact hp m (by simp [hm])
      rcases ih g1m hp2 with ⟨g1, hrun, hed, hkeys, hAset, hfr⟩
      refine ⟨g1, ?_, ?_, ?_, ?_, ?_⟩
      · have hnd : g.nodeData n = some d := hd
        simp only [objective_nodes, hnd]
        exact hrun
      · rw [hed, hg1m]
        rfl
      · rw [hkeys, hnodesm, setNode_keys]
      · intro x hx
        by_cases hxr : x ∈ rest
        · exact hAset x hxr
        · rcases List.mem_cons.mp hx with hxn | hxr2
          · subst hxn
            refine ⟨d.set "A" (Val.v (FVal.fin q0)), ?_, q0, Dict.lookup_set_self d "A" _⟩
            rw [hfr x hxr, hnodesm]
            exact findNode_setNode_self g.nodes x _ (by rw [hd]; rfl)
          · exact absurd hxr2 hxr
      · intro x hx
        have hxn : x ≠ n := fun hc => hx (by simp [hc])
        have hxr : x ∉ rest := fun hc => hx (by simp [hc])
        rw [hfr x hxr, hnodesm, findNode_setNode_ne g.nodes n _ x hxn]

theorem sum_nodes_ok : ∀ (ns : List (Node × Dict)) (acc : ℚ),
    (∀ p ∈ ns, ∃ q, Dict.lookup p.2 "A" = some (Val.v (FVal.fin q))) →
    ∃ S, sum_nodes_A ns acc = .ok S := by
  intro ns
  induction ns with
  | nil => exact fun acc _ => ⟨acc, rfl⟩
  | cons p rest ih =>
      intro acc h
      rcases h p (by simp) with ⟨q, hq⟩
      have hget : getA p.2 = .ok q := by simp [getA, hq]
      rcases ih (acc + q) (fun r hr => h r (by simp [hr])) with ⟨S, hS⟩
      refine ⟨S, ?_⟩
      simp only [sum_nodes_A, hget]
      exact hS

theorem sum_edges_ok : ∀ (es : List Msg) (acc : ℚ),
    (∀ e ∈ es, Dict.lookup e.2.2 "direction" = some (Val.s "fwd") →
      ∃ q, Dict.lookup e.2.2 "A" = some (Val.v (FVal.fin q))) →
    ∃ S, sum_edges_A es acc = .ok S := by
  intro es
  induction es with
  | nil => exact fun acc _ => ⟨acc, rfl⟩
  | cons e rest ih =>
      intro acc h
      by_cases hdir : Dict.lookup e.2.2 "direction" = some (Val.s "fwd")
      · rcases h e (by simp) hdir with ⟨q, hq⟩
        have hget : getA e.2.2 = .ok q := by simp [getA, hq]
        rcases ih (acc + q) (fun r hr hdr => h r (by simp [hr]) hdr) with ⟨S, hS⟩
        refine ⟨S, ?_⟩
        simp only [sum_edges_A, if_pos hdir, hget]
        exact hS
      · rcases ih acc (fun r hr hdr => h r (by simp [hr]) hdr) with ⟨S, hS⟩
        refine ⟨S, ?_⟩
        simp only [sum_edges_A, if_neg hdir]
        exact hS

theorem objective_edges_effect (algo : Algo) : ∀ (ks : List (Node × Node)) (g : Graph),
    (∀ sk ∈ ks, sk ∈ g.edges.map edgeKey ∧ (sk.2, sk.1) ∈ g.edges.map edgeKey ∧
      sk.1 ≠ sk.2) →
    SymInv ks g →
    ∃ g2, objective_edges algo g ks = .ok g2 ∧
      g2.edges.map edgeKey = g.edges.map edgeKey ∧
      g2.nodes = g.nodes ∧
      SymA g2 := by
  intro ks
  induction ks with
  | nil =>
      intro g _ hinv
      refine ⟨g, rfl, rfl, rfl, ?_⟩
      intro s t d hd hdir
      rcases hinv s t d hd hdir with h | h
      · simp at h
      · exact h
  | cons sk rest ih =>
      intro g hpres hinv
      rcases hpres sk (by simp) with ⟨hmem1, hmem2, hne⟩
      rcases Option.isSome_iff_exists.mp ((findEdge_isSome_iff g.edges sk.1 sk.2).mpr hmem1)
        with ⟨d, hd0⟩
      have hd : g.edgeData sk.1 sk.2 = some d := hd0
      by_cases hfwd : Dict.lookup d "direction" = some (Val.s "fwd")
      · rcases Option.isSome_iff_exists.mp ((findEdge_isSome_iff g.edges sk.2 sk.1).mpr hmem2)
          with ⟨rd, hrd0⟩
        have hrd : g.edgeData sk.2 sk.1 = some rd := hrd0
        set v : Node := if sk.1.isVariable then sk.1 else sk.2 with hv
        set A : ℚ := algo.node_objective v [(sk.1, sk.2, d), (sk.2, sk.1, rd)] with hA
        set av : Val := Val.v (FVal.fin A) with hav
        set gm : Graph := (g.setEdge sk.1 sk.2 (d.set "A" av)).setEdge sk.2 sk.1
          (rd.set "A" av) with hgm
        have hkeysgm : gm.edges.map edgeKey = g.edges.map edgeKey := by
          rw [hgm, Graph.setEdge_keys, Graph.setEdge_keys]
        have hdgm1 : gm.edgeData sk.1 sk.2 = some (d.set "A" av) := by
          rw [hgm, Graph.edgeData_setEdge_ne _ sk.2 sk.1 _ sk.1 sk.2 (fun hc => hne hc.1)]
          exact Graph.edgeData_setEdge_self g sk.1 sk.2 _ (by rw [hd]; rfl)
        have hdgm2 : gm.edgeData sk.2 sk.1 = some (rd.set "A" av) := by
          rw [hgm]
          apply Graph.edgeData_setEdge_self
          rw [Graph.edgeData_setEdge_ne g sk.1 sk.2 _ sk.2 sk.1 (fun hc => hne hc.2), hrd]
          rfl
        have hdgmo : ∀ s t, ¬ (s = sk.1 ∧ t = sk.2) → ¬ (s = sk.2 ∧ t = sk.1) →
            gm.edgeData s t = g.edgeData s t := by
          intro s t h1 h2
          rw [hgm, Graph.edgeData_setEdge_ne _ sk.2 sk.1 _ s t h2,
            Graph.edgeData_setEdge_ne g sk.1 sk.2 _ s t h1]
        have hpres2 : ∀ sk2 ∈ rest, sk2 ∈ gm.edges.map edgeKey ∧
            (sk2.2, sk2.1) ∈ gm.edges.map edgeKey ∧ sk2.1 ≠ sk2.2 := by
          intro sk2 hk
          rcases hpres sk2 (by simp [hk]) with ⟨a1, a2, a3⟩
          rw [hkeysgm]
          exact ⟨a1, a2, a3⟩
        have hinv2 : SymInv rest gm := by
          intro s t d2 hd2 hdir2
          by_cases hc1 : s = sk.1 ∧ t = sk.2
          · right
            have hdd : gm.edgeData s t = some (d.set "A" av) := by
              rw [hc1.1, hc1.2]
              exact hdgm1
            rw [hdd] at hd2
            have hd2d : d2 = d.set "A" av := by injection hd2 with hh; exact hh.symm
            subst hd2d
            refine ⟨⟨A, Dict.lookup_set_self d "A" av⟩, rd.set "A" av, ?_, ?_⟩
            · rw [hc1.1, hc1.2]
              exact hdgm2
            · rw [Dict.lookup_set_self, Dict.lookup_set_self]
          · by_cases hc2 : s = sk.2 ∧ t = sk.1
            · right
              have hdd : gm.edgeData s t = some (rd.set "A" av) := by
                rw [hc2.1, hc2.2]
                exact hdgm2
              rw [hdd] at hd2
              have hd2d : d2 = rd.set "A" av := by injection hd2 with hh; exact hh.symm
              subst hd2d
              refine ⟨⟨A, Dict.lookup_set_self rd "A" av⟩, d.set "A" av, ?_, ?_⟩
              · rw [hc2.1, hc2.2]
                exact hdgm1
              · rw [Dict.lookup_set_self, Dict.lookup_set_self]
            · have hgd : g.edgeData s t = some d2 := by
                rw [← hdgmo s t hc1 hc2]
                exact hd2
              rcases hinv s t d2 hgd hdir2 with hL | hR
              · rcases List.mem_cons.mp hL with hL1 | hL2
                · exfalso
                  apply hc1
                  exact ⟨congrArg Prod.fst hL1, congrArg Prod.snd hL1⟩
                · exact Or.inl hL2
              · right
                rcases hR with ⟨hTy, dr, hdr2, hEq⟩
                refine ⟨hTy, dr, ?_, hEq⟩
                have hr1 : ¬ (t = sk.1 ∧ s = sk.2) := fun hc => hc2 ⟨hc.2, hc.1⟩
                have hr2 : ¬ (t = sk.2 ∧ s = sk.1) := fun hc => hc1 ⟨hc.2, hc.1⟩
                rw [hdgmo t s hr1 hr2]
                exact hdr2
        rcases ih gm hpres2 hinv2 with ⟨g2, hrun, hkeys, hnodes, hsym⟩
        refine ⟨g2, ?_, ?_, ?_, hsym⟩
        · simp only [objective_edges, hd, if_pos hfwd, hrd]
          exact hrun
        · rw [hkeys, hkeysgm]
        · rw [hnodes, hgm]
          rfl
      · have hinv2 : SymInv rest g := by
          intro s t d2 hd2 hdir2
          rcases hinv s t d2 hd2 hdir2 with hL | hR
          · rcases List.mem_cons.mp hL with hL1 | hL2
            · exfalso
              have hs : s = sk.1 := congrArg Prod.fst hL1
              have ht : t = sk.2 := congrArg Prod.snd hL1
              rw [hs, ht, hd] at hd2
              have hdd : d2 = d := by injection hd2 with hh; exact hh.symm
              subst hdd
              exact hfwd hdir2
            · exact Or.inl hL2
          · exact Or.inr hR
        rcases ih g (fun sk2 hk => hpres sk2 (by simp [hk])) hinv2 with
          ⟨g2, hrun, hkeys, hnodes, hsym⟩
        refine ⟨g2, ?_, hkeys, hnodes, hsym⟩
        simp only [objective_edges, hd, if_neg hfwd]
        exact hrun

/-- C5: `update_objective` succeeds on a wellformed doubled graph, the
returned total is `A_model = A_nodes - A_edges` where `A_nodes` sums the
stored per-node `A` over all nodes and `A_edges` sums the stored per-edge `A`
over `fwd`-tagged edges only (each model edge counted once), and in the final
graph every forward/backward edge pair between the same two endpoints stores
the identical contribution `A` on both directed edges. -/
theorem C5_objective_symmetry (algo : Algo) (mp : Engine) (g : Graph)
    (hnodesnd : (g.nodes.map Prod.fst).Nodup)
    (hcover : ∀ p ∈ g.nodes, p.1 ∈ mp.forward_ordering)
    (hord : ∀ n ∈ mp.forward_ordering, (findNode g.nodes n).isSome)
    (hednd : (g.edges.map edgeKey).Nodup)
    (hswap : ∀ e ∈ g.edges, (e.2.1, e.1) ∈ g.edges.map edgeKey)
    (hnoself : ∀ e ∈ g.edges, e.1 ≠ e.2.1) :
    ∃ g2 A_nodes A_edges,
      update_objective algo mp g = .ok (g2, A_nodes - A_edges) ∧
      sum_nodes_A g2.nodes 0 = .ok A_nodes ∧
      sum_edges_A g2.edges 0 = .ok A_edges ∧
      SymA g2 := by
  rcases objective_nodes_effect algo mp.forward_ordering g hord with
    ⟨g1, h1, hedges1, hkeys1, hAset, hframe1⟩
  have hpres : ∀ sk ∈ g1.edges.map edgeKey, sk ∈ g1.edges.map edgeKey ∧
      (sk.2, sk.1) ∈ g1.edges.map edgeKey ∧ sk.1 ≠ sk.2 := by
    intro sk hk
    refine ⟨hk, ?_, ?_⟩
    · rw [hedges1] at hk ⊢
      rcases List.mem_map.mp hk with ⟨e, he, hkey⟩
      have hsw := hswap e he
      have h1a : e.2.1 = sk.2 := congrArg Prod.snd hkey
      have h2a : e.1 = sk.1 := congrArg Prod.fst hkey
      rw [← h1a, ← h2a]
      exact hsw
    · rw [hedges1] at hk
      rcases List.mem_map.mp hk with ⟨e, he, hkey⟩
      have h1a : e.2.1 = sk.2 := congrArg Prod.snd hkey
      have h2a : e.1 = sk.1 := congrArg Prod.fst hkey
      rw [← h1a, ← h2a]
      exact hnoself e he
  have hinv : SymInv (g1.edges.map edgeKey) g1 := by
    intro s t d hd _
    left
    have hsome : (g1.edgeData s t).isSome := by rw [hd]; rfl
    exact (findEdge_isSome_iff g1.edges s t).mp hsome
  rcases objective_edges_effect algo (g1.edges.map edgeKey) g1 hpres hinv with
    ⟨g2, h2, hkeys2, hnodes2, hsym⟩
  have hA_nodes : ∀ p ∈ g2.nodes, ∃ q, Dict.lookup p.2 "A" = some (Val.v (FVal.fin q)) := by
    intro p hp
    rw [hnodes2] at hp
    have hnd1 : (g1.nodes.map Prod.fst).Nodup := by
      rw [hkeys1]
      exact hnodesnd
    have hfound := findNode_of_mem_nodup g1.nodes p hnd1 hp
    have hinf : p.1 ∈ mp.forward_ordering := by
      have hkmem : p.1 ∈ g.nodes.map Prod.fst := by
        rw [← hkeys1]
        exact List.mem_map.mpr ⟨p, hp, rfl⟩
      rcases List.mem_map.mp hkmem with ⟨p0, hp0, hk0⟩
      rw [← hk0]
      exact hcover p0 hp0
    rcases hAset p.1 hinf with ⟨d1, hd1, q, hq⟩
    rw [hfound] at hd1
    have hdd : d1 = p.2 := by injection hd1 with hh; exact hh.symm
    subst hdd
    exact ⟨q, hq⟩
  rcases sum_nodes_ok g2.nodes 0 hA_nodes with ⟨An, hAn⟩
  have hA_edges : ∀ e ∈ g2.edges, Dict.lookup e.2.2 "direction" = some (Val.s "fwd") →
      ∃ q, Dict.lookup e.2.2 "A" = some (Val.v (FVal.fin q)) := by
    intro e he hdir
    have hnd2 : (g2.edges.map edgeKey).Nodup := by
      rw [hkeys2, hedges1]
      exact hednd
    have hfound := findEdge_of_mem_nodup g2.edges e hnd2 he
    have hed : g2.edgeData e.1 e.2.1 = some e.2.2 := hfound
    rcases hsym e.1 e.2.1 e.2.2 hed hdir with ⟨⟨q, hq⟩, -⟩
    exact ⟨q, hq⟩
  rcases sum_edges_ok g2.edges 0 hA_edges with ⟨Ae, hAe⟩
  refine ⟨g2, An, Ae, ?_, hAn, hAe, hsym⟩
  unfold update_objective
  simp only [h1, except_ok_bind, h2, hAn, hAe]

/-- Closed instantiation of the C5 theorem on the concrete doubled-edge
fixture. -/
theorem C5_witness :
    ∃ g2 A_nodes A_edges,
      update_objective c5Algo c5Engine c5Graph = .ok (g2, A_nodes - A_edges) ∧
      sum_nodes_A g2.nodes 0 = .ok A_nodes ∧
      sum_edges_A g2.edges 0 = .ok A_edges ∧
      SymA g2 := by
  rcases C5_objective_symmetry c5Algo c5Engine c5Graph
    (by decide) (by decide) (by decide) (by decide) (by decide) (by decide) with
    ⟨g2, An, Ae, hrun, hAn, hAe, hsym⟩
  exact ⟨g2, An, Ae, hrun, hAn, hAe, hsym⟩

end Tramp
